import Mathlib

/-!
Verification of the legal-document key-term extraction core
(`preprocess.py`, `update.py`).  Documents, terms and persisted file
contents are modelled as `List Char`; Python dictionaries as ordered
association lists; Python exceptions as `Option`/`Except` failure; the
iteration order of a Python `set` as insertion order (no theorem below
depends on that order except where explicitly weakened to a permutation
or membership statement).  Character classes model the ASCII/Latin
fragment of Python's Unicode-aware `str` semantics.
-/

set_option maxRecDepth 20000

abbrev LC := List Char

/-- The whitespace characters of Python's `str.isspace` / regex `\s`
(the set used by `str.strip()`), restricted to code points we enumerate
explicitly. -/
def pySpaceChars : List Char :=
  ['\t', '\n', Char.ofNat 0x0b, Char.ofNat 0x0c, '\r',
   Char.ofNat 0x1c, Char.ofNat 0x1d, Char.ofNat 0x1e, Char.ofNat 0x1f, ' ',
   Char.ofNat 0x85, Char.ofNat 0xa0, Char.ofNat 0x1680,
   Char.ofNat 0x2000, Char.ofNat 0x2001, Char.ofNat 0x2002, Char.ofNat 0x2003,
   Char.ofNat 0x2004, Char.ofNat 0x2005, Char.ofNat 0x2006, Char.ofNat 0x2007,
   Char.ofNat 0x2008, Char.ofNat 0x2009, Char.ofNat 0x200a,
   Char.ofNat 0x2028, Char.ofNat 0x2029, Char.ofNat 0x202f,
   Char.ofNat 0x205f, Char.ofNat 0x3000]

def pyIsSpace (c : Char) : Bool := pySpaceChars.contains c

/-- Line-break characters recognized by Python's `str.splitlines`. -/
def pyLineBreakChars : List Char :=
  ['\n', '\r', Char.ofNat 0x0b, Char.ofNat 0x0c,
   Char.ofNat 0x1c, Char.ofNat 0x1d, Char.ofNat 0x1e,
   Char.ofNat 0x85, Char.ofNat 0x2028, Char.ofNat 0x2029]

def pyIsLineBreak (c : Char) : Bool := pyLineBreakChars.contains c

/-- Word characters of regex `\w` (ASCII fragment). -/
def pyIsWordChar (c : Char) : Bool := c.isAlphanum || c = '_'

/-- `str.lower`, ASCII fragment (`Char.toLower` maps A-Z to a-z). -/
def lowerStr (l : LC) : LC := l.map Char.toLower

/-- `str.strip()`: drop leading and trailing whitespace. -/
def pyStrip (l : LC) : LC :=
  ((l.dropWhile pyIsSpace).reverse.dropWhile pyIsSpace).reverse

/-- The character map of `.replace("\n", " ")`. -/
def replNl (c : Char) : Char := if c = '\n' then ' ' else c

/-- `section.strip().replace("\n", " ")` from `map_terms_to_sections`. -/
def cleanupSection (sec : LC) : LC := (pyStrip sec).map replNl

/-- Python substring containment `pat in s`. -/
def isSubstrOf (pat : LC) : LC → Bool
  | [] => pat.isEmpty
  | c :: rest => pat.isPrefixOf (c :: rest) || isSubstrOf pat rest

/-- `str.splitlines` worker: accumulates the current line (reversed);
`afterCr` records that the previous character was a carriage return, so
that a following line feed is consumed as part of the same break. -/
def splitLinesAcc (afterCr : Bool) (acc : LC) : LC → List LC
  | [] => if acc.isEmpty then [] else [acc.reverse]
  | c :: rest =>
    if afterCr && c = '\n' then splitLinesAcc false acc rest
    else if pyIsLineBreak c then acc.reverse :: splitLinesAcc (c = '\r') [] rest
    else splitLinesAcc false (c :: acc) rest

/-- Python `content.splitlines()`. -/
def pySplitlines (l : LC) : List LC := splitLinesAcc false [] l

/-! ## SectionMapper: `re.split(r"(?=\b\d+\.\s)", text)` -/

/-- After the leading digit: consume further digits, then require
a literal period followed by a whitespace character. -/
def digitsDotSpaceAfter : LC → Bool
  | [] => false
  | c :: rest =>
    if c.isDigit then digitsDotSpaceAfter rest
    else c = '.' && (match rest with
      | [] => false
      | d :: _ => pyIsSpace d)

/-- Does `\d+\.\s` match at the start of `rest`? -/
def digitsThenDotSpace : LC → Bool
  | [] => false
  | c :: rest => c.isDigit && digitsDotSpaceAfter rest

/-- Does the zero-width pattern `(?=\b\d+\.\s)` match between `prev`
and `rest`?  Since the next character must be a digit (a word
character), the word boundary holds iff `prev` is absent or not a word
character. -/
def headingBoundary (prev : Option Char) (rest : LC) : Bool :=
  (match prev with
   | none => true
   | some c => !pyIsWordChar c) && digitsThenDotSpace rest

/-- `re.split` on a zero-width pattern: cut the input before every
match position, consuming nothing. -/
def splitGo (prev : Option Char) (acc : LC) : LC → List LC
  | [] => [acc.reverse]
  | c :: rest =>
    if headingBoundary prev (c :: rest) then
      acc.reverse :: splitGo (some c) [c] rest
    else
      splitGo (some c) (c :: acc) rest

/-- The section split used by `map_terms_to_sections`. -/
def splitSections (text : LC) : List LC := splitGo none [] text

/-! ## TermCurationEngine -/

/-- `term in section_lower` (Python substring containment against the
lowercased section). -/
def sectionMatch (term sec : LC) : Bool := isSubstrOf term (lowerStr sec)

/-- Append `x` unless already present (`if x not in l: l.append(x)`). -/
def appendUnique (l : List LC) (x : LC) : List LC :=
  if x ∈ l then l else l ++ [x]

/-- The hard-coded critical vocabulary of `ensure_critical_terms`. -/
def criticalTerms : List LC :=
  ["confidentiality".toList, "security deposit".toList,
   "employee".toList ++ [Char.ofNat 39] ++ "s duties".toList]

/-- `ensure_critical_terms`: add each critical term found in the
lowercased text, if absent from the candidate set. -/
def ensure_critical_terms (extracted : List LC) (text : LC) : List LC :=
  criticalTerms.foldl
    (fun acc term =>
      if isSubstrOf term (lowerStr text) then appendUnique acc term else acc)
    extracted

/-- `ensure_ground_truth_terms`: append each ground-truth term found in
the lowercased text, if absent. -/
def ensure_ground_truth_terms (extracted : List LC) (gt : List LC)
    (text : LC) : List LC :=
  gt.foldl
    (fun acc term =>
      if isSubstrOf term (lowerStr text) then appendUnique acc term else acc)
    extracted

/-- `filter_relevant_terms`: keep only ground-truth members, in order. -/
def filter_relevant_terms (terms : List LC) (gt : List LC) : List LC :=
  terms.filter (fun t => t ∈ gt)

/-! ## SectionMapper: term-to-section record -/

/-- First-occurrence deduplication (the effect of guarded `append`). -/
def dedupFirst (l : List LC) : List LC :=
  l.foldl (fun acc t => if t ∈ acc then acc else acc ++ [t]) []

/-- `{term: [] for term in terms}` (dict-comprehension: insertion order,
duplicate keys collapsed). -/
def initMap (terms : List LC) : List (LC × List LC) :=
  (dedupFirst terms).map (fun t => (t, ([] : List LC)))

/-- `term_section_map[term].append(section_context)` guarded by the
`not in` check, applied to the entry with the given key. -/
def updateEntry (m : List (LC × List LC)) (t : LC) (sec : LC) :
    List (LC × List LC) :=
  m.map (fun p => if p.1 = t then (p.1, appendUnique p.2 sec) else p)

/-- The inner loop of `map_terms_to_sections` for one section. -/
def processSection (terms : List LC) (m : List (LC × List LC)) (sec : LC) :
    List (LC × List LC) :=
  terms.foldl
    (fun m t =>
      if sectionMatch t sec then updateEntry m t (cleanupSection sec) else m)
    m

/-- `map_terms_to_sections`: split into sections, collect matching
section contexts per term, keep only non-empty entries. -/
def map_terms_to_sections (text : LC) (terms : List LC) :
    List (LC × List LC) :=
  ((splitSections text).foldl (processSection terms) (initMap terms)).filter
    (fun p => !p.2.isEmpty)

/-! ## Basic lemmas -/

theorem splitGo_join (l : LC) :
    ∀ (prev : Option Char) (acc : LC),
      (splitGo prev acc l).flatten = acc.reverse ++ l := by
  induction l with
  | nil => intro prev acc; simp [splitGo]
  | cons c rest ih =>
    intro prev acc
    by_cases h : headingBoundary prev (c :: rest) = true
    · simp [splitGo, h, ih]
    · simp only [splitGo, h]
      simp [ih]

/-- Claim C3: concatenating all sections produced by the section split
used in `map_terms_to_sections` reproduces the input text verbatim. -/
theorem split_sections_join_eq (text : LC) :
    (splitSections text).flatten = text := by
  simpa using splitGo_join text none []

theorem mem_appendUnique {l : List LC} {x t : LC} :
    t ∈ appendUnique l x ↔ t ∈ l ∨ t = x := by
  unfold appendUnique
  by_cases h : x ∈ l
  · simp only [if_pos h]
    constructor
    · exact fun h2 => Or.inl h2
    · rintro (h2 | rfl) <;> [exact h2; exact h]
  · simp [if_neg h]

theorem mem_ensure_fold {cs : List LC} {text : LC} :
    ∀ {acc : List LC} {t : LC},
      t ∈ cs.foldl
          (fun acc term =>
            if isSubstrOf term (lowerStr text) then appendUnique acc term
            else acc) acc
        ↔ t ∈ acc ∨ (t ∈ cs ∧ isSubstrOf t (lowerStr text) = true) := by
  induction cs with
  | nil => intro acc t; simp
  | cons c rest ih =>
    intro acc t
    simp only [List.foldl_cons]
    by_cases hc : isSubstrOf c (lowerStr text) = true
    · rw [if_pos hc, ih, mem_appendUnique]
      constructor
      · rintro ((h | rfl) | ⟨h1, h2⟩)
        · exact Or.inl h
        · exact Or.inr ⟨List.mem_cons_self _ _, hc⟩
        · exact Or.inr ⟨List.mem_cons_of_mem _ h1, h2⟩
      · rintro (h | ⟨h1, h2⟩)
        · exact Or.inl (Or.inl h)
        · rcases List.mem_cons.mp h1 with rfl | h1
          · exact Or.inl (Or.inr rfl)
          · exact Or.inr ⟨h1, h2⟩
    · rw [if_neg hc, ih]
      constructor
      · rintro (h | ⟨h1, h2⟩)
        · exact Or.inl h
        · exact Or.inr ⟨List.mem_cons_of_mem _ h1, h2⟩
      · rintro (h | ⟨h1, h2⟩)
        · exact Or.inl h
        · rcases List.mem_cons.mp h1 with rfl | h1
          · exact absurd h2 hc
          · exact Or.inr ⟨h1, h2⟩

/-- Claim C4: `ensure_critical_terms` adds a critical term exactly when
it occurs in the lowercased text and is not already a candidate, and
neither adds nor removes anything else: membership in the result is
membership in the candidates or being a critical term occurring in the
text. -/
theorem ensure_critical_terms_mem_iff (cands : List LC) (text : LC) (t : LC) :
    t ∈ ensure_critical_terms cands text
      ↔ t ∈ cands ∨ (t ∈ criticalTerms ∧ isSubstrOf t (lowerStr text) = true) := by
  unfold ensure_critical_terms
  exact mem_ensure_fold

/-! ## Association-list and deduplication lemmas -/

def lookupKey {β : Type} (m : List (LC × β)) (t : LC) : Option β :=
  match m with
  | [] => none
  | p :: rest => if p.1 = t then some p.2 else lookupKey rest t

theorem appendUnique_idem (l : List LC) (x : LC) :
    appendUnique (appendUnique l x) x = appendUnique l x := by
  unfold appendUnique
  by_cases h : x ∈ l
  · simp [h]
  · simp [h]

theorem dedupFirst_eq_foldl (l : List LC) :
    dedupFirst l = l.foldl appendUnique [] := rfl

theorem mem_foldl_appendUnique (l : List LC) :
    ∀ (acc : List LC) (t : LC),
      t ∈ l.foldl appendUnique acc ↔ t ∈ acc ∨ t ∈ l := by
  induction l with
  | nil => intro acc t; simp
  | cons x rest ih =>
    intro acc t
    rw [List.foldl_cons, ih, mem_appendUnique]
    constructor
    · rintro ((h | rfl) | h)
      · exact Or.inl h
      · exact Or.inr (List.mem_cons_self _ _)
      · exact Or.inr (List.mem_cons_of_mem _ h)
    · rintro (h | h)
      · exact Or.inl (Or.inl h)
      · rcases List.mem_cons.mp h with rfl | h
        · exact Or.inl (Or.inr rfl)
        · exact Or.inr h

theorem mem_dedupFirst (l : List LC) (t : LC) :
    t ∈ dedupFirst l ↔ t ∈ l := by
  rw [dedupFirst_eq_foldl, mem_foldl_appendUnique]; simp

theorem nodup_foldl_appendUnique (l : List LC) :
    ∀ (acc : List LC), acc.Nodup → (l.foldl appendUnique acc).Nodup := by
  induction l with
  | nil => intro acc h; simpa using h
  | cons x rest ih =>
    intro acc h
    rw [List.foldl_cons]
    apply ih
    unfold appendUnique
    by_cases hx : x ∈ acc
    · simpa [hx] using h
    · simp [hx, List.nodup_append, h, List.disjoint_singleton]

theorem nodup_dedupFirst (l : List LC) : (dedupFirst l).Nodup := by
  rw [dedupFirst_eq_foldl]
  exact nodup_foldl_appendUnique l [] List.nodup_nil

theorem foldl_appendUnique_of_nodup (l : List LC) :
    ∀ (acc : List LC), (acc ++ l).Nodup → l.foldl appendUnique acc = acc ++ l := by
  induction l with
  | nil => intro acc _; simp
  | cons x rest ih =>
    intro acc h
    have hx : x ∉ acc := by
      intro hmem
      rcases List.nodup_append.mp h with ⟨_, _, hdis⟩
      exact hdis hmem (List.mem_cons_self _ _)
    rw [List.foldl_cons]
    have : appendUnique acc x = acc ++ [x] := by simp [appendUnique, hx]
    rw [this, ih (acc ++ [x]) (by simpa using h)]
    simp

theorem dedupFirst_eq_self (l : List LC) (h : l.Nodup) : dedupFirst l = l := by
  rw [dedupFirst_eq_foldl]
  simpa using foldl_appendUnique_of_nodup l [] (by simpa using h)

theorem lookupKey_tabulated {β : Type} (L : List LC) (g : LC → β) (t : LC) :
    lookupKey (L.map (fun u => (u, g u))) t
      = if t ∈ L then some (g t) else none := by
  induction L with
  | nil => simp [lookupKey]
  | cons u rest ih =>
    by_cases hu : u = t
    · subst hu; simp [lookupKey, ih]
    · simp [lookupKey, hu, ih, List.mem_cons, Ne.symm hu]

/-! ## Tabulated characterization of the section mapping -/

/-- The per-term accumulation carried out by the loop of
`map_terms_to_sections`: fold the sections, appending the cleaned text
of each matching section unless already present. -/
def sectionsFor (text : LC) (t : LC) : List LC :=
  (splitSections text).foldl
    (fun l sec =>
      if sectionMatch t sec = true then appendUnique l (cleanupSection sec) else l)
    []

theorem updateEntry_tabulated (L : List LC) (g : LC → List LC) (u : LC) (sec : LC) :
    updateEntry (L.map (fun t => (t, g t))) u sec
      = L.map (fun t => (t, if t = u then appendUnique (g t) sec else g t)) := by
  unfold updateEntry
  rw [List.map_map]
  apply List.map_congr_left
  intro a _
  by_cases h : a = u
  · simp [Function.comp, h]
  · simp [Function.comp, h]

theorem processSection_tabulated (terms : List LC) (sec : LC) :
    ∀ (L : List LC) (g : LC → List LC),
      processSection terms (L.map (fun t => (t, g t))) sec
        = L.map (fun t => (t,
            if t ∈ terms ∧ sectionMatch t sec = true
            then appendUnique (g t) (cleanupSection sec) else g t)) := by
  unfold processSection
  induction terms with
  | nil => intro L g; simp
  | cons u rest ih =>
    intro L g
    rw [List.foldl_cons]
    by_cases hu : sectionMatch u sec = true
    · rw [if_pos hu, updateEntry_tabulated,
        ih L (fun t => if t = u then appendUnique (g t) (cleanupSection sec) else g t)]
      apply List.map_congr_left
      intro a _
      by_cases hau : a = u
      · subst hau
        by_cases har : a ∈ rest
        · simp [har, hu, appendUnique_idem]
        · simp [har, hu]
      · by_cases har : a ∈ rest <;> by_cases ham : sectionMatch a sec = true <;>
          simp [hau, har, ham, List.mem_cons]
    · rw [if_neg hu, ih L g]
      apply List.map_congr_left
      intro a _
      by_cases hau : a = u
      · subst hau; simp [hu]
      · simp [hau, List.mem_cons]

theorem foldSections_tabulated (terms : List LC) :
    ∀ (secs : List LC) (L : List LC) (g : LC → List LC), (∀ t ∈ L, t ∈ terms) →
      secs.foldl (processSection terms) (L.map (fun t => (t, g t)))
        = L.map (fun t => (t, secs.foldl
            (fun l sec =>
              if sectionMatch t sec = true then appendUnique l (cleanupSection sec) else l)
            (g t))) := by
  intro secs
  induction secs with
  | nil => intro L g hL; simp
  | cons sec rest ih =>
    intro L g hL
    rw [List.foldl_cons, processSection_tabulated]
    have hcong : L.map (fun t => (t,
        if t ∈ terms ∧ sectionMatch t sec = true
        then appendUnique (g t) (cleanupSection sec) else g t))
        = L.map (fun t => (t,
        if sectionMatch t sec = true
        then appendUnique (g t) (cleanupSection sec) else g t)) := by
      apply List.map_congr_left
      intro a ha
      by_cases hm : sectionMatch a sec = true
      · simp [hm, hL a ha]
      · simp [hm]
    rw [hcong, ih L _ hL]
    apply List.map_congr_left
    intro a _
    simp

theorem map_terms_struct (text : LC) (terms : List LC) :
    map_terms_to_sections text terms
      = ((dedupFirst terms).map (fun t => (t, sectionsFor text t))).filter
          (fun p => !p.2.isEmpty) := by
  unfold map_terms_to_sections initMap
  have h0 : (dedupFirst terms).map (fun t => (t, ([] : List LC)))
      = (dedupFirst terms).map (fun t => (t, (fun _ : LC => ([] : List LC)) t)) := rfl
  rw [h0, foldSections_tabulated terms (splitSections text) (dedupFirst terms) _
    (fun t ht => (mem_dedupFirst terms t).mp ht)]
  rfl

theorem foldl_guard_filter (t : LC) :
    ∀ (secs : List LC) (acc : List LC),
      secs.foldl
        (fun l sec =>
          if sectionMatch t sec = true then appendUnique l (cleanupSection sec) else l)
        acc
      = ((secs.filter (fun sec => sectionMatch t sec)).map cleanupSection).foldl
          appendUnique acc := by
  intro secs
  induction secs with
  | nil => intro acc; simp
  | cons sec rest ih =>
    intro acc
    by_cases hm : sectionMatch t sec = true
    · simp [hm, ih]
    · simp [hm, ih]

theorem sectionsFor_eq_dedup (text : LC) (t : LC) :
    sectionsFor text t
      = dedupFirst (((splitSections text).filter
          (fun sec => sectionMatch t sec)).map cleanupSection) := by
  unfold sectionsFor
  rw [foldl_guard_filter, dedupFirst_eq_foldl]

theorem lookup_map_terms (text : LC) (terms : List LC) (t : LC) :
    lookupKey (map_terms_to_sections text terms) t
      = if t ∈ terms ∧ sectionsFor text t ≠ [] then some (sectionsFor text t)
        else none := by
  rw [map_terms_struct, List.filter_map, lookupKey_tabulated]
  by_cases h1 : t ∈ terms <;> by_cases h2 : sectionsFor text t = [] <;>
    simp [List.mem_filter, mem_dedupFirst, h1, h2, Function.comp]

/-! ## Substring and stripping lemmas -/

theorem isSubstrOf_iff (pat : LC) :
    ∀ (s : LC), isSubstrOf pat s = true ↔ pat <:+: s := by
  intro s
  induction s with
  | nil =>
    simp [isSubstrOf, List.isEmpty_iff, List.infix_nil]
  | cons c rest ih =>
    rw [isSubstrOf, Bool.or_eq_true, ih, List.isPrefixOf_iff_prefix,
      List.infix_cons_iff]

theorem head?_dropWhile_false (p : Char → Bool) :
    ∀ (l : LC) (d : Char), (l.dropWhile p).head? = some d → p d = false := by
  intro l
  induction l with
  | nil => intro d h; simp at h
  | cons c rest ih =>
    intro d h
    rw [List.dropWhile_cons] at h
    by_cases hc : p c = true
    · exact ih d (by simpa [hc] using h)
    · rw [if_neg hc] at h
      simp only [List.head?_cons, Option.some.injEq] at h
      subst h
      exact Bool.eq_false_iff.mpr hc

theorem suffix_getLast? {l m : LC} (h : l <:+ m) (hne : l ≠ []) :
    m.getLast? = l.getLast? := by
  obtain ⟨pre, rfl⟩ := h
  exact List.getLast?_append_of_ne_nil pre hne

theorem pyStrip_head_false (l : LC) (d : Char) (rest : LC)
    (h : pyStrip l = d :: rest) : pyIsSpace d = false := by
  unfold pyStrip at h
  set u := l.dropWhile pyIsSpace with hu
  set X := u.reverse.dropWhile pyIsSpace with hX
  have hXlast : X.getLast? = some d := by
    rw [← List.head?_reverse, h]; rfl
  have hXne : X ≠ [] := by
    intro h0; rw [h0] at hXlast; simp at hXlast
  have hsuf : X <:+ u.reverse := by rw [hX]; exact List.dropWhile_suffix _
  have h1 : u.reverse.getLast? = some d := by
    rw [suffix_getLast? hsuf hXne]; exact hXlast
  have h2 : u.head? = some d := by
    rw [← List.getLast?_reverse]; exact h1
  exact head?_dropWhile_false pyIsSpace l d (by rw [← hu]; exact h2)

theorem pyStrip_getLast_false (l : LC) (d : Char)
    (h : (pyStrip l).getLast? = some d) : pyIsSpace d = false := by
  unfold pyStrip at h
  rw [List.getLast?_reverse] at h
  exact head?_dropWhile_false pyIsSpace _ d h

theorem dropWhile_append_cons (p : Char → Bool) (a : LC) (d : Char) (x : LC)
    (hd : p d = false) :
    List.dropWhile p (a ++ d :: x) = a.dropWhile p ++ d :: x := by
  induction a with
  | nil => simp [List.dropWhile_cons, hd]
  | cons c a2 ih =>
    by_cases hc : p c = true
    · simpa [List.dropWhile_cons, hc] using ih
    · simp [List.dropWhile_cons, hc]

theorem infix_dropWhile_of_head (p : Char → Bool) (t L : LC) (h : t <:+: L)
    (hh : ∀ d, t.head? = some d → p d = false) : t <:+: L.dropWhile p := by
  rcases t with _ | ⟨d, t2⟩
  · exact List.nil_infix
  · obtain ⟨a, b, rfl⟩ := h
    have hd : p d = false := hh d rfl
    have : (a ++ (d :: t2) ++ b).dropWhile p = a.dropWhile p ++ d :: (t2 ++ b) := by
      rw [List.append_assoc, List.cons_append, dropWhile_append_cons p a d (t2 ++ b) hd]
    rw [this]
    exact ⟨a.dropWhile p, b, by simp⟩

theorem infix_pyStrip (t L : LC) (h : t <:+: L)
    (hh : ∀ d, t.head? = some d → pyIsSpace d = false)
    (hl : ∀ d, t.getLast? = some d → pyIsSpace d = false) :
    t <:+: pyStrip L := by
  have s1 : t <:+: L.dropWhile pyIsSpace := infix_dropWhile_of_head pyIsSpace t L h hh
  have s2 : t.reverse <:+: (L.dropWhile pyIsSpace).reverse :=
    List.reverse_infix.mpr s1
  have s3 : t.reverse <:+: ((L.dropWhile pyIsSpace).reverse).dropWhile pyIsSpace := by
    apply infix_dropWhile_of_head pyIsSpace _ _ s2
    intro d hd
    exact hl d (by rw [← List.head?_reverse]; exact hd)
  have s4 : t <:+: pyStrip L := by
    unfold pyStrip
    have := List.reverse_infix.mpr s3
    simpa using this
  exact s4

/-! ## Character-level lemmas for lowercasing -/

theorem char_toNat_ofNat_range (n : Nat) (h1 : 97 ≤ n) (h2 : n ≤ 122) :
    (Char.ofNat n).toNat = n := by
  unfold Char.ofNat
  split
  · rfl
  · next hbad => exact absurd (Or.inl (by omega) : n.isValidChar) hbad

theorem space_toLower_self (c : Char) (h : pyIsSpace c = true) :
    c.toLower = c := by
  have hmem : c ∈ pySpaceChars := by
    have hall : pyIsSpace c = List.elem c pySpaceChars := rfl
    rw [hall] at h
    exact List.elem_iff.mp h
  have hdec : ∀ x ∈ pySpaceChars, x.toLower = x := by decide
  exact hdec c hmem

theorem space_toNat_small (c : Char) (h : pyIsSpace c = true) :
    c.toNat < 65 ∨ 90 < c.toNat := by
  have hmem : c ∈ pySpaceChars := by
    have hall : pyIsSpace c = List.elem c pySpaceChars := rfl
    rw [hall] at h
    exact List.elem_iff.mp h
  have hdec : ∀ x ∈ pySpaceChars, x.toNat < 65 ∨ 90 < x.toNat := by decide
  exact hdec c hmem

theorem space_toNat_not_lower_range (c : Char) (h : pyIsSpace c = true) :
    c.toNat < 97 ∨ 122 < c.toNat := by
  have hmem : c ∈ pySpaceChars := by
    have hall : pyIsSpace c = List.elem c pySpaceChars := rfl
    rw [hall] at h
    exact List.elem_iff.mp h
  have hdec : ∀ x ∈ pySpaceChars, x.toNat < 97 ∨ 122 < x.toNat := by decide
  exact hdec c hmem

theorem toLower_eq_self_of_not_upper (c : Char)
    (h : ¬(65 ≤ c.toNat ∧ c.toNat ≤ 90)) : c.toLower = c := by
  unfold Char.toLower
  rw [if_neg (by omega)]

theorem toLower_toNat_of_upper (c : Char) (h : 65 ≤ c.toNat ∧ c.toNat ≤ 90) :
    c.toLower.toNat = c.toNat + 32 := by
  unfold Char.toLower
  rw [if_pos (by omega)]
  exact char_toNat_ofNat_range _ (by omega) (by omega)

theorem pyIsSpace_toLower (c : Char) :
    pyIsSpace c.toLower = pyIsSpace c := by
  by_cases h : 65 ≤ c.toNat ∧ c.toNat ≤ 90
  · have h1 : pyIsSpace c = false := by
      cases hsp : pyIsSpace c
      · rfl
      · exfalso
        rcases space_toNat_small c hsp with h2 | h2 <;> omega
    have h2 : pyIsSpace c.toLower = false := by
      cases hsp : pyIsSpace c.toLower
      · rfl
      · exfalso
        have h3 := space_toNat_not_lower_range _ hsp
        rw [toLower_toNat_of_upper c h] at h3
        rcases h3 with h3 | h3 <;> omega
    rw [h1, h2]
  · rw [toLower_eq_self_of_not_upper c h]

theorem toLower_toLower (c : Char) :
    c.toLower.toLower = c.toLower := by
  by_cases h : 65 ≤ c.toNat ∧ c.toNat ≤ 90
  · apply toLower_eq_self_of_not_upper
    rw [toLower_toNat_of_upper c h]
    omega
  · rw [toLower_eq_self_of_not_upper c h, toLower_eq_self_of_not_upper c h]

theorem toLower_ne_newline (c : Char) (h : c ≠ '\n') : c.toLower ≠ '\n' := by
  by_cases hu : 65 ≤ c.toNat ∧ c.toNat ≤ 90
  · intro h2
    have h3 := toLower_toNat_of_upper c hu
    rw [h2] at h3
    have h4 : ('\n').toNat = 10 := rfl
    rw [h4] at h3
    omega
  · rw [toLower_eq_self_of_not_upper c hu]; exact h

theorem replNl_toLower_comm (c : Char) :
    (replNl c).toLower = replNl c.toLower := by
  by_cases h : c = '\n'
  · subst h; rfl
  · have h1 : replNl c = c := by simp [replNl, h]
    have h2 : replNl c.toLower = c.toLower := by
      simp [replNl, toLower_ne_newline c h]
    rw [h1, h2]

theorem pyStrip_map_toLower (l : LC) :
    pyStrip (lowerStr l) = lowerStr (pyStrip l) := by
  have hp : (pyIsSpace ∘ Char.toLower) = pyIsSpace := by
    funext c; exact pyIsSpace_toLower c
  unfold pyStrip lowerStr
  rw [List.dropWhile_map, hp, ← List.map_reverse, List.dropWhile_map, hp,
    ← List.map_reverse]

theorem cleanup_lower_comm (sec : LC) :
    cleanupSection (lowerStr sec) = lowerStr (cleanupSection sec) := by
  unfold cleanupSection
  rw [pyStrip_map_toLower]
  unfold lowerStr
  rw [List.map_map, List.map_map]
  apply List.map_congr_left
  intro a _
  exact (replNl_toLower_comm a).symm

theorem mem_sectionsFor (text : LC) (t : LC) (s : LC)
    (h : s ∈ sectionsFor text t) :
    ∃ sec, sec ∈ splitSections text ∧ sectionMatch t sec = true
      ∧ s = cleanupSection sec := by
  rw [sectionsFor_eq_dedup] at h
  rw [mem_dedupFirst] at h
  obtain ⟨sec, hsec, rfl⟩ := List.mem_map.mp h
  exact ⟨sec, (List.mem_filter.mp hsec).1, (List.mem_filter.mp hsec).2, rfl⟩

/-! ## Claims C9, C10, C2 -/

/-- Claim C9 counterexample: with term list `["Foo"]` and text `"Foo"`,
the single section `"Foo"` matches the term case-insensitively (its
lowercasing contains the lowercased term), yet the record is empty,
because the code tests the term verbatim against the lowercased section
and an uppercase term never matches. -/
theorem map_terms_case_counterexample :
    map_terms_to_sections ("Foo".toList) [("Foo".toList)] = []
      ∧ splitSections ("Foo".toList) = [("Foo".toList)]
      ∧ isSubstrOf (lowerStr ("Foo".toList)) (lowerStr ("Foo".toList)) = true := by
  refine ⟨?_, ?_, ?_⟩ <;> decide

/-- Claim C9 (amended): the record returned by `map_terms_to_sections`
contains an entry for a term iff the term is in the input list and its
section list is non-empty; that list is exactly the first-occurrence
deduplication of the whitespace-collapsed, trimmed texts of the sections
that contain the term verbatim as a substring of the lowercased section
(case-insensitive matching only in the sense that the section, not the
term, is lowercased). -/
theorem map_terms_lookup_characterization (text : LC) (terms : List LC)
    (t : LC) (l : List LC) :
    lookupKey (map_terms_to_sections text terms) t = some l
      ↔ t ∈ terms ∧ l ≠ []
        ∧ l = dedupFirst (((splitSections text).filter
            (fun sec => isSubstrOf t (lowerStr sec))).map cleanupSection) := by
  rw [lookup_map_terms]
  have hsec : dedupFirst (((splitSections text).filter
      (fun sec => isSubstrOf t (lowerStr sec))).map cleanupSection)
      = sectionsFor text t := (sectionsFor_eq_dedup text t).symm
  rw [hsec]
  by_cases hc : t ∈ terms ∧ sectionsFor text t ≠ []
  · rw [if_pos hc]
    constructor
    · intro he
      have hl : sectionsFor text t = l := by injection he
      exact ⟨hc.1, hl ▸ hc.2, hl.symm⟩
    · rintro ⟨_, _, rfl⟩
      rfl
  · rw [if_neg hc]
    constructor
    · intro he; cases he
    · rintro ⟨h1, h2, rfl⟩
      exact absurd ⟨h1, h2⟩ hc

/-- Claim C10: if a term has no newline and no leading or trailing
whitespace, then every section context stored for it by
`map_terms_to_sections` contains the term as a case-insensitive
substring - the strip and newline-replacement applied before storage
never destroy the occurrence that triggered the match. -/
theorem section_context_contains_term (text : LC) (terms : List LC)
    (t : LC) (l : List LC) (s : LC) (hn : '\n' ∉ t) (hstrip : pyStrip t = t)
    (hlook : lookupKey (map_terms_to_sections text terms) t = some l)
    (hs : s ∈ l) :
    isSubstrOf (lowerStr t) (lowerStr s) = true := by
  rw [lookup_map_terms] at hlook
  by_cases hc : t ∈ terms ∧ sectionsFor text t ≠ []
  case neg =>
    rw [if_neg hc] at hlook
    cases hlook
  rw [if_pos hc] at hlook
  have hls : sectionsFor text t = l := by injection hlook
  rw [← hls] at hs
  obtain ⟨sec, hsec, hm, rfl⟩ := mem_sectionsFor text t _ hs
  have hinf : t <:+: lowerStr sec := (isSubstrOf_iff t (lowerStr sec)).mp hm
  have hlow : lowerStr t = t := by
    unfold lowerStr
    have hfix : ∀ c ∈ t, c.toLower = c := by
      intro c hct
      have hcmem : c ∈ lowerStr sec := hinf.sublist.subset hct
      obtain ⟨d, _, rfl⟩ := List.mem_map.mp hcmem
      exact toLower_toLower d
    calc t.map Char.toLower = t.map id := List.map_congr_left hfix
    _ = t := List.map_id t
  have hh : ∀ d, t.head? = some d → pyIsSpace d = false := by
    intro d hd
    cases t with
    | nil => cases hd
    | cons x xs =>
      have hx : x = d := by simpa using hd
      subst hx
      exact pyStrip_head_false (x :: xs) x xs (by rw [hstrip])
  have hl2 : ∀ d, t.getLast? = some d → pyIsSpace d = false := by
    intro d hd
    exact pyStrip_getLast_false t d (by rw [hstrip]; exact hd)
  have hstr : t <:+: pyStrip (lowerStr sec) :=
    infix_pyStrip t _ hinf hh hl2
  have hrep : t <:+: (pyStrip (lowerStr sec)).map replNl := by
    have hmap := List.IsInfix.map replNl hstr
    have ht : t.map replNl = t := by
      have : ∀ c ∈ t, replNl c = c := by
        intro c hct
        have : c ≠ '\n' := fun he => hn (he ▸ hct)
        simp [replNl, this]
      calc t.map replNl = t.map id := List.map_congr_left this
      _ = t := List.map_id t
    rwa [ht] at hmap
  have hfin : t <:+: lowerStr (cleanupSection sec) := by
    rw [← cleanup_lower_comm]
    exact hrep
  rw [hlow]
  exact (isSubstrOf_iff t (lowerStr (cleanupSection sec))).mpr hfin

theorem section_context_contains_term_witness :
    ('\n' ∉ "foo".toList)
    ∧ pyStrip ("foo".toList) = "foo".toList
    ∧ lookupKey (map_terms_to_sections ("1. foo bar".toList) [("foo".toList)])
        ("foo".toList) = some [("1. foo bar".toList)]
    ∧ isSubstrOf (lowerStr ("foo".toList)) (lowerStr ("1. foo bar".toList)) = true :=
  ⟨by decide, by decide, by decide,
    section_context_contains_term ("1. foo bar".toList) [("foo".toList)]
      ("foo".toList) [("1. foo bar".toList)] ("1. foo bar".toList)
      (by decide) (by decide) (by decide) (by decide)⟩

/-- Claim C2: every term kept by `filter_relevant_terms` after the full
curation chain is a member of the supplied ground-truth set, and hence
so is every key of the record `map_terms_to_sections` builds from that
list. -/
theorem curated_terms_subset_of_ground_truth (text : LC) (cands gt : List LC)
    (t : LC) :
    (t ∈ filter_relevant_terms
        (ensure_ground_truth_terms (ensure_critical_terms cands text) gt text)
        gt → t ∈ gt)
    ∧ (∀ l, lookupKey (map_terms_to_sections text
        (filter_relevant_terms
          (ensure_ground_truth_terms (ensure_critical_terms cands text) gt text)
          gt)) t = some l → t ∈ gt) := by
  have hfil : ∀ ts : List LC, t ∈ filter_relevant_terms ts gt → t ∈ gt := by
    intro ts h
    unfold filter_relevant_terms at h
    have := List.mem_filter.mp h
    simpa using this.2
  refine ⟨hfil _, ?_⟩
  intro l h
  rw [lookup_map_terms] at h
  split at h
  · next hcond => exact hfil _ hcond.1
  · cases h

theorem curated_terms_subset_of_ground_truth_witness :
    ("confidentiality".toList ∈ filter_relevant_terms
        (ensure_ground_truth_terms
          (ensure_critical_terms [] ("1. x confidentiality".toList))
          [("confidentiality".toList)] ("1. x confidentiality".toList))
        [("confidentiality".toList)])
    ∧ "confidentiality".toList ∈ [("confidentiality".toList)] :=
  ⟨by decide,
    (curated_terms_subset_of_ground_truth ("1. x confidentiality".toList) []
      [("confidentiality".toList)] ("confidentiality".toList)).1 (by decide)⟩

/-! ## ResultStore: save (`save_term_extraction_results`) and load
(`parse_term_extraction_results`, the `update.py` variant used by the
monitor). -/

def bulletMark : LC := "- ".toList

def termMark : LC := "Term:".toList

def sectionMark : LC := "Section:".toList

/-- The file content written by `save_term_extraction_results`
(concatenation of the `f.write` calls). -/
def save_term_extraction_results (terms : List LC)
    (tsm : List (LC × List LC)) : LC :=
  "Extracted Key Terms:\n".toList
  ++ terms.flatMap (fun t => "- ".toList ++ t ++ ['\n'])
  ++ "\nMapped Sections:\n".toList
  ++ tsm.flatMap (fun p =>
      "\nTerm: ".toList ++ p.1 ++ ['\n']
      ++ p.2.flatMap (fun s => "Section: ".toList ++ s ++ "\n\n---\n".toList))

/-- `terms.add(term)` on the parser's Python set, modelled with
insertion order. -/
def addSet (terms : List LC) (t : LC) : List LC :=
  if t ∈ terms then terms else terms ++ [t]

/-- `term_section_map[term] = []`: reset an existing key in place, or
append a fresh entry. -/
def setKey (m : List (LC × List LC)) (t : LC) : List (LC × List LC) :=
  if (lookupKey m t).isSome then
    m.map (fun p => if p.1 = t then (p.1, ([] : List LC)) else p)
  else m ++ [(t, [])]

/-- `term_section_map[current_term].append(...)`: `none` models the
`KeyError` raised when the key is absent. -/
def appendKey (m : List (LC × List LC)) (t : LC) (s : LC) :
    Option (List (LC × List LC)) :=
  if (lookupKey m t).isSome then
    some (m.map (fun p => if p.1 = t then (p.1, p.2 ++ [s]) else p))
  else none

/-- `line.split(":")[1]`: the text between the first and second colon
(or to the end if there is no second colon).  Total model; the code
only evaluates it on lines that contain a colon. -/
def splitColonField1 (l : LC) : LC :=
  ((l.dropWhile (fun c => c ≠ ':')).drop 1).takeWhile (fun c => c ≠ ':')

/-- Python truthiness of the `current_term` variable: `None` and the
empty string are falsy. -/
def optTruthy (c : Option LC) : Bool :=
  match c with
  | none => false
  | some t => !t.isEmpty

/-- The parser loop of `parse_term_extraction_results` (`update.py`):
state is the term set, the term-section dict, and the current term
(`if current_term:` guards the `Section:` branch; the `bind` propagates
the `KeyError` of a missing dict key). -/
def parseLinesGo :
    List LC → List LC → List (LC × List LC) → Option LC →
      Option (List LC × List (LC × List LC))
  | [], terms, m, _ => some (terms, m)
  | line :: rest, terms, m, cur =>
    if bulletMark.isPrefixOf line then
      parseLinesGo rest (addSet terms (pyStrip (line.drop 2)))
        (setKey m (pyStrip (line.drop 2))) (some (pyStrip (line.drop 2)))
    else if termMark.isPrefixOf line then
      parseLinesGo rest terms m (some (pyStrip (splitColonField1 line)))
    else if sectionMark.isPrefixOf line then
      if optTruthy cur then
        (appendKey m (cur.getD []) (pyStrip (line.drop 9))).bind
          (fun m2 => parseLinesGo rest terms m2 cur)
      else parseLinesGo rest terms m cur
    else parseLinesGo rest terms m cur

/-- `parse_term_extraction_results` from `update.py`; `none` models an
uncaught `KeyError`. -/
def parse_term_extraction_results (content : LC) :
    Option (List LC × List (LC × List LC)) :=
  parseLinesGo (pySplitlines content) [] [] none

/-! ## Claim C5 -/

/-- Claim C5 counterexample: on the content `"Term: x\nSection: y"` the
parser raises (`KeyError`: the `Term:` line switches the current term to
`"x"`, which was never registered by a bullet line, and the following
`Section:` line then appends to a missing dict key). -/
theorem parse_raises_counterexample :
    parse_term_extraction_results ("Term: x\nSection: y".toList) = none := by
  decide

def termNameOf (line : LC) : LC := pyStrip (splitColonField1 line)

def bulletTermOf (line : LC) : LC := pyStrip (line.drop 2)

theorem lookupKey_cons {β : Type} (p : LC × β) (rest : List (LC × β))
    (u : LC) :
    lookupKey (p :: rest) u = if p.1 = u then some p.2 else lookupKey rest u :=
  rfl

theorem lookupKey_map_entry (m : List (LC × List LC)) (f : List LC → List LC)
    (t : LC) : ∀ (u : LC),
    lookupKey (m.map (fun p => if p.1 = t then (p.1, f p.2) else p)) u
      = if u = t then (lookupKey m u).map f else lookupKey m u := by
  induction m with
  | nil => intro u; simp [lookupKey]
  | cons p rest ih =>
    intro u
    rw [List.map_cons]
    by_cases hpt : p.1 = t
    · rw [if_pos hpt, lookupKey_cons, lookupKey_cons]
      by_cases hpu : p.1 = u
      · have hut : u = t := by rw [← hpu]; exact hpt
        rw [if_pos hpu, if_pos hut, if_pos hpu]
        rfl
      · have hut : ¬(u = t) := by
          intro he
          exact hpu (by rw [hpt, he])
        rw [if_neg hpu, if_neg hut, if_neg hpu, ih u, if_neg hut]
    · rw [if_neg hpt, lookupKey_cons, lookupKey_cons]
      by_cases hpu : p.1 = u
      · have hut : ¬(u = t) := by
          intro he
          exact hpt (by rw [hpu, he])
        rw [if_pos hpu, if_neg hut, if_pos hpu]
      · rw [if_neg hpu, if_neg hpu, ih u]

theorem lookupKey_setKey_self (m : List (LC × List LC)) (t : LC) :
    lookupKey (setKey m t) t = some [] := by
  unfold setKey
  by_cases h : (lookupKey m t).isSome = true
  · rw [if_pos h]
    have heq : m.map (fun p => if p.1 = t then (p.1, ([] : List LC)) else p)
        = m.map (fun p => if p.1 = t then (p.1, (fun _ : List LC => ([] : List LC)) p.2) else p) := rfl
    rw [heq, lookupKey_map_entry m (fun _ => []) t t, if_pos rfl]
    obtain ⟨v, hv⟩ := Option.isSome_iff_exists.mp h
    rw [hv]; rfl
  · rw [if_neg h]
    induction m with
    | nil => simp [lookupKey]
    | cons p rest ih =>
      by_cases hpt : p.1 = t
      · exfalso
        apply h
        simp [lookupKey, hpt]
      · simp only [lookupKey, List.cons_append]
        rw [if_neg hpt]
        apply ih
        intro h2
        apply h
        simp only [lookupKey]
        rw [if_neg hpt]
        exact h2

theorem lookupKey_setKey_ne (m : List (LC × List LC)) (t u : LC) (h : u ≠ t) :
    lookupKey (setKey m u) t = lookupKey m t := by
  unfold setKey
  by_cases hs : (lookupKey m u).isSome = true
  · rw [if_pos hs]
    have heq : m.map (fun p => if p.1 = u then (p.1, ([] : List LC)) else p)
        = m.map (fun p => if p.1 = u then (p.1, (fun _ : List LC => ([] : List LC)) p.2) else p) := rfl
    rw [heq, lookupKey_map_entry m (fun _ => []) u t, if_neg (Ne.symm h)]
  · rw [if_neg hs]
    induction m with
    | nil => simp [lookupKey, h]
    | cons p rest ih =>
      by_cases hpt : p.1 = t
      · simp [lookupKey, hpt]
      · simp only [lookupKey, List.cons_append]
        rw [if_neg hpt, if_neg hpt]
        apply ih
        intro h2
        apply hs
        simp only [lookupKey]
        by_cases hpu : p.1 = u
        · simp [hpu]
        · rw [if_neg hpu]; exact h2

theorem appendKey_some_lookup (m : List (LC × List LC)) (t s : LC)
    (m2 : List (LC × List LC)) (h : appendKey m t s = some m2) :
    ∀ u, (lookupKey m2 u).isSome = (lookupKey m u).isSome := by
  unfold appendKey at h
  by_cases hs : (lookupKey m t).isSome = true
  · rw [if_pos hs] at h
    intro u
    have heq : m.map (fun p => if p.1 = t then (p.1, p.2 ++ [s]) else p)
        = m.map (fun p => if p.1 = t then (p.1, (fun v => v ++ [s]) p.2) else p) := rfl
    have hm2 : m2 = m.map (fun p => if p.1 = t then (p.1, p.2 ++ [s]) else p) := by
      injection h with h2; exact h2.symm
    rw [hm2, heq, lookupKey_map_entry m (fun v => v ++ [s]) t u]
    by_cases hut : u = t
    · rw [if_pos hut]; cases lookupKey m u <;> rfl
    · rw [if_neg hut]
  · rw [if_neg hs] at h; cases h

theorem appendKey_isSome_of (m : List (LC × List LC)) (t s : LC)
    (h : (lookupKey m t).isSome = true) :
    appendKey m t s
      = some (m.map (fun p => if p.1 = t then (p.1, p.2 ++ [s]) else p)) := by
  unfold appendKey
  rw [if_pos h]

theorem parseLinesGo_nil (terms : List LC) (m : List (LC × List LC))
    (cur : Option LC) : parseLinesGo [] terms m cur = some (terms, m) := rfl

theorem parseLinesGo_cons (line : LC) (rest : List LC) (terms : List LC)
    (m : List (LC × List LC)) (cur : Option LC) :
    parseLinesGo (line :: rest) terms m cur
      = if bulletMark.isPrefixOf line then
          parseLinesGo rest (addSet terms (pyStrip (line.drop 2)))
            (setKey m (pyStrip (line.drop 2))) (some (pyStrip (line.drop 2)))
        else if termMark.isPrefixOf line then
          parseLinesGo rest terms m (some (pyStrip (splitColonField1 line)))
        else if sectionMark.isPrefixOf line then
          if optTruthy cur then
            (appendKey m (cur.getD []) (pyStrip (line.drop 9))).bind
              (fun m2 => parseLinesGo rest terms m2 cur)
          else parseLinesGo rest terms m cur
        else parseLinesGo rest terms m cur := rfl

/-- The amended claim C5's tolerance condition, rendered from its
words: scanning the lines while tracking the set of terms registered
by bullet lines and the current term, every `Section:` line must be
reached while the current term is empty (falsy) or was previously
registered by a bullet line. -/
def sectionLinesOk : List LC → List LC → Option LC → Bool
  | [], _, _ => true
  | line :: rest, reg, cur =>
    if bulletMark.isPrefixOf line then
      sectionLinesOk rest (bulletTermOf line :: reg)
        (some (bulletTermOf line))
    else if termMark.isPrefixOf line then
      sectionLinesOk rest reg (some (termNameOf line))
    else if sectionMark.isPrefixOf line then
      if optTruthy cur then
        reg.contains (cur.getD []) && sectionLinesOk rest reg cur
      else sectionLinesOk rest reg cur
    else sectionLinesOk rest reg cur

theorem sectionLinesOk_cons (line : LC) (rest : List LC) (reg : List LC)
    (cur : Option LC) :
    sectionLinesOk (line :: rest) reg cur
      = if bulletMark.isPrefixOf line then
          sectionLinesOk rest (bulletTermOf line :: reg)
            (some (bulletTermOf line))
        else if termMark.isPrefixOf line then
          sectionLinesOk rest reg (some (termNameOf line))
        else if sectionMark.isPrefixOf line then
          if optTruthy cur then
            reg.contains (cur.getD []) && sectionLinesOk rest reg cur
          else sectionLinesOk rest reg cur
        else sectionLinesOk rest reg cur := rfl

theorem parseLinesGo_isSome_eq :
    ∀ (lines : List LC) (reg : List LC) (terms : List LC)
      (m : List (LC × List LC)) (cur : Option LC),
      (∀ t, (lookupKey m t).isSome = reg.contains t) →
      (parseLinesGo lines terms m cur).isSome
        = sectionLinesOk lines reg cur := by
  intro lines
  induction lines with
  | nil => intro reg terms m cur _; rfl
  | cons line rest ih =>
    intro reg terms m cur hinv
    rw [parseLinesGo_cons, sectionLinesOk_cons]
    by_cases hb : bulletMark.isPrefixOf line = true
    · rw [if_pos hb, if_pos hb]
      have hbt : pyStrip (line.drop 2) = bulletTermOf line := rfl
      rw [hbt]
      apply ih
      intro t
      rw [List.contains_cons]
      by_cases he : t = bulletTermOf line
      · rw [he, lookupKey_setKey_self, beq_self_eq_true, Bool.true_or]
        rfl
      · rw [lookupKey_setKey_ne m t (bulletTermOf line) (Ne.symm he),
          hinv t, beq_eq_false_iff_ne.mpr he, Bool.false_or]
    · rw [if_neg hb, if_neg hb]
      by_cases ht : termMark.isPrefixOf line = true
      · rw [if_pos ht, if_pos ht]
        have htn : pyStrip (splitColonField1 line) = termNameOf line := rfl
        rw [htn]
        exact ih reg terms m (some (termNameOf line)) hinv
      · rw [if_neg ht, if_neg ht]
        by_cases hs : sectionMark.isPrefixOf line = true
        · rw [if_pos hs, if_pos hs]
          by_cases htr : optTruthy cur = true
          · rw [if_pos htr, if_pos htr]
            by_cases hk : (lookupKey m (cur.getD [])).isSome = true
            · rw [appendKey_isSome_of m _ _ hk, Option.some_bind]
              have hc : reg.contains (cur.getD []) = true := by
                rw [← hinv]
                exact hk
              rw [hc, Bool.true_and]
              apply ih
              intro t
              rw [appendKey_some_lookup m _ _ _
                (appendKey_isSome_of m _ _ hk) t]
              exact hinv t
            · have hnone : appendKey m (cur.getD [])
                  (pyStrip (line.drop 9)) = none := by
                unfold appendKey
                rw [if_neg hk]
              rw [hnone, Option.none_bind]
              have hc : reg.contains (cur.getD []) = false := by
                rw [← hinv]
                simpa using hk
              rw [hc, Bool.false_and]
              rfl
          · rw [if_neg htr, if_neg htr]
            exact ih reg terms m cur hinv
        · rw [if_neg hs, if_neg hs]
          exact ih reg terms m cur hinv

/-- Claim C5 (amended): the parser tolerates arbitrary interleavings
of bullet, `Term:` and `Section:` lines exactly under the amended
condition: it returns a result (raises no `KeyError`) if and only if
every `Section:` line is reached while the current term is empty or
was previously registered by a bullet line (`sectionLinesOk`); a
`Section:` line under a nonempty unregistered current term — reachable
only through a `Term:` line naming a never-bulleted term — raises, as
the counterexample shows. -/
theorem parse_tolerant_amended (content : LC) :
    (parse_term_extraction_results content).isSome
      = sectionLinesOk (pySplitlines content) [] none := by
  unfold parse_term_extraction_results
  apply parseLinesGo_isSome_eq
  intro t
  rfl

/-! ## Line structure of the saved file -/

def termLineStart : LC := "Term: ".toList

def sectionLineStart : LC := "Section: ".toList

def sectionBlockLines (s : LC) : List LC :=
  [sectionLineStart ++ s, [], "---".toList]

def termBlockLines (p : LC × List LC) : List LC :=
  [[], termLineStart ++ p.1] ++ p.2.flatMap sectionBlockLines

def saveLines (terms : List LC) (tsm : List (LC × List LC)) : List LC :=
  "Extracted Key Terms:".toList
    :: ((terms.map (fun t => bulletMark ++ t))
      ++ ([[], "Mapped Sections:".toList] ++ tsm.flatMap termBlockLines))

def joinNl (lines : List LC) : LC := lines.flatMap (fun l => l ++ ['\n'])

theorem joinNl_nil : joinNl [] = [] := rfl

theorem joinNl_cons (l : LC) (rest : List LC) :
    joinNl (l :: rest) = l ++ '\n' :: joinNl rest := by
  simp [joinNl]

theorem joinNl_append (a b : List LC) :
    joinNl (a ++ b) = joinNl a ++ joinNl b := by
  simp [joinNl]

theorem joinNl_map {α : Type} (f : α → LC) (l : List α) :
    joinNl (l.map f) = l.flatMap (fun x => f x ++ ['\n']) := by
  induction l with
  | nil => rfl
  | cons x xs ih => simp [joinNl_cons, ih]

theorem joinNl_flatMap {α : Type} (g : α → List LC) (l : List α) :
    joinNl (l.flatMap g) = l.flatMap (fun x => joinNl (g x)) := by
  induction l with
  | nil => rfl
  | cons x xs ih => simp [joinNl_append, ih]

theorem joinNl_sectionBlock (s : LC) :
    joinNl (sectionBlockLines s)
      = "Section: ".toList ++ s ++ "\n\n---\n".toList := by
  unfold sectionBlockLines
  rw [joinNl_cons, joinNl_cons, joinNl_cons, joinNl_nil]
  have h1 : "\n\n---\n".toList = '\n' :: ([] ++ '\n' :: ("---".toList ++ ['\n'])) := by
    decide
  rw [h1]
  rfl

theorem joinNl_termBlock (p : LC × List LC) :
    joinNl (termBlockLines p)
      = "\nTerm: ".toList ++ p.1 ++ ['\n']
        ++ p.2.flatMap (fun s =>
            "Section: ".toList ++ s ++ "\n\n---\n".toList) := by
  unfold termBlockLines
  rw [joinNl_append, joinNl_cons, joinNl_cons, joinNl_nil, joinNl_flatMap]
  have hsec : (fun s => joinNl (sectionBlockLines s))
      = (fun s => "Section: ".toList ++ s ++ "\n\n---\n".toList) :=
    funext joinNl_sectionBlock
  rw [hsec]
  have h1 : "\nTerm: ".toList = '\n' :: "Term: ".toList := by decide
  have h2 : termLineStart = "Term: ".toList := rfl
  rw [h1, h2]
  simp

theorem save_eq_joinNl (terms : List LC) (tsm : List (LC × List LC)) :
    save_term_extraction_results terms tsm = joinNl (saveLines terms tsm) := by
  unfold save_term_extraction_results saveLines
  rw [joinNl_cons, joinNl_append, joinNl_append, joinNl_cons, joinNl_cons,
    joinNl_nil, joinNl_map, joinNl_flatMap]
  have htb : (fun p : LC × List LC => joinNl (termBlockLines p))
      = (fun p : LC × List LC => "\nTerm: ".toList ++ p.1 ++ ['\n']
          ++ p.2.flatMap (fun s =>
              "Section: ".toList ++ s ++ "\n\n---\n".toList)) :=
    funext joinNl_termBlock
  rw [htb]
  have h1 : "Extracted Key Terms:\n".toList
      = "Extracted Key Terms:".toList ++ ['\n'] := by decide
  have h2 : "\nMapped Sections:\n".toList
      = '\n' :: ("Mapped Sections:".toList ++ ('\n' :: [])) := by decide
  have h3 : (fun t : LC => "- ".toList ++ t ++ ['\n'])
      = (fun t : LC => (bulletMark ++ t) ++ ['\n']) := by
    funext t
    have : bulletMark = "- ".toList := rfl
    rw [this, List.append_assoc]
  rw [h1, h2, h3]
  simp

/-! ## Splitting the saved file back into its lines -/

theorem splitLinesAcc_cons (b : Bool) (acc : LC) (c : Char) (rest : LC) :
    splitLinesAcc b acc (c :: rest)
      = if b && c = '\n' then splitLinesAcc false acc rest
        else if pyIsLineBreak c then
          acc.reverse :: splitLinesAcc (c = '\r') [] rest
        else splitLinesAcc false (c :: acc) rest := rfl

theorem splitLinesAcc_break_free (l : LC) :
    ∀ (acc : LC) (rest : LC), (∀ c ∈ l, pyIsLineBreak c = false) →
      splitLinesAcc false acc (l ++ '\n' :: rest)
        = (acc.reverse ++ l) :: splitLinesAcc false [] rest := by
  induction l with
  | nil =>
    intro acc rest _
    rw [List.nil_append, splitLinesAcc_cons]
    rw [if_neg (by simp), if_pos (by decide)]
    have : (('\n' : Char) = '\r') = False := by simp
    simp
  | cons c l2 ih =>
    intro acc rest hfree
    have hc : pyIsLineBreak c = false := hfree c (List.mem_cons_self _ _)
    rw [List.cons_append, splitLinesAcc_cons]
    rw [if_neg (by simp), if_neg (by simp [hc])]
    rw [ih (c :: acc) rest (fun d hd => hfree d (List.mem_cons_of_mem _ hd))]
    simp

theorem pySplitlines_joinNl :
    ∀ (L : List LC), (∀ l ∈ L, ∀ c ∈ l, pyIsLineBreak c = false) →
      pySplitlines (joinNl L) = L := by
  intro L
  induction L with
  | nil => intro _; rfl
  | cons l rest ih =>
    intro h
    unfold pySplitlines
    rw [joinNl_cons,
      splitLinesAcc_break_free l [] (joinNl rest) (h l (List.mem_cons_self _ _))]
    have := ih (fun l2 hl2 c hc => h l2 (List.mem_cons_of_mem _ hl2) c hc)
    unfold pySplitlines at this
    rw [this]
    rfl

/-! ## Running the parser over the generated lines -/

theorem isPrefixOf_append_self (a b : LC) : a.isPrefixOf (a ++ b) = true := by
  rw [List.isPrefixOf_iff_prefix]
  exact ⟨b, rfl⟩

theorem not_prefixOf_head (a : Char) (as : LC) (c : Char) (l : LC)
    (h : (a == c) = false) : (a :: as).isPrefixOf (c :: l) = false := by
  simp only [List.isPrefixOf, Bool.and_eq_false_iff]
  left
  exact h

theorem parse_skip (line : LC) (rest : List LC) (terms : List LC)
    (m : List (LC × List LC)) (cur : Option LC)
    (hb : bulletMark.isPrefixOf line = false)
    (ht : termMark.isPrefixOf line = false)
    (hs : sectionMark.isPrefixOf line = false) :
    parseLinesGo (line :: rest) terms m cur = parseLinesGo rest terms m cur := by
  rw [parseLinesGo_cons, if_neg (by simp [hb]), if_neg (by simp [ht]),
    if_neg (by simp [hs])]

theorem parse_bullet (t : LC) (ht : pyStrip t = t) (rest : List LC)
    (terms : List LC) (m : List (LC × List LC)) (cur : Option LC) :
    parseLinesGo ((bulletMark ++ t) :: rest) terms m cur
      = parseLinesGo rest (addSet terms t) (setKey m t) (some t) := by
  rw [parseLinesGo_cons, if_pos (by simp [isPrefixOf_append_self])]
  have hd : (bulletMark ++ t).drop 2 = t := by
    have hlen : bulletMark.length = 2 := by decide
    rw [← hlen, List.drop_left]
  rw [hd, ht]

theorem parse_bullets (ts : List LC) :
    ∀ (rest : List LC) (terms : List LC) (m : List (LC × List LC))
      (cur : Option LC),
      (∀ t ∈ ts, pyStrip t = t) →
      parseLinesGo ((ts.map (fun t => bulletMark ++ t)) ++ rest) terms m cur
        = parseLinesGo rest (ts.foldl addSet terms) (ts.foldl setKey m)
            (ts.foldl (fun _ t => some t) cur) := by
  induction ts with
  | nil => intro rest terms m cur _; simp
  | cons t ts2 ih =>
    intro rest terms m cur h
    rw [List.map_cons, List.cons_append,
      parse_bullet t (h t (List.mem_cons_self _ _)),
      ih rest _ _ _ (fun u hu => h u (List.mem_cons_of_mem _ hu))]
    simp

theorem dropWhile_colon_termLine (t : LC) :
    (termLineStart ++ t).dropWhile (fun c => c ≠ ':') = ':' :: ' ' :: t := by
  have h0 : termLineStart ++ t = 'T' :: 'e' :: 'r' :: 'm' :: ':' :: ' ' :: t := by
    have h1 : termLineStart = ['T', 'e', 'r', 'm', ':', ' '] := by decide
    rw [h1]
    rfl
  rw [h0, List.dropWhile_cons, if_pos (by decide), List.dropWhile_cons,
    if_pos (by decide), List.dropWhile_cons, if_pos (by decide),
    List.dropWhile_cons, if_pos (by decide), List.dropWhile_cons,
    if_neg (by decide)]

theorem takeWhile_no_colon (t : LC) (h : ':' ∉ t) :
    t.takeWhile (fun c => c ≠ ':') = t := by
  induction t with
  | nil => rfl
  | cons c rest ih =>
    have hc : c ≠ ':' := fun he => h (he ▸ List.mem_cons_self _ _)
    rw [List.takeWhile_cons, if_pos (by simp [hc]),
      ih (fun hm => h (List.mem_cons_of_mem _ hm))]

theorem splitColonField1_termLine (t : LC) (hc : ':' ∉ t) :
    splitColonField1 (termLineStart ++ t) = ' ' :: t := by
  unfold splitColonField1
  rw [dropWhile_colon_termLine]
  have hd : ((':' :: ' ' :: t).drop 1) = ' ' :: t := rfl
  rw [hd, List.takeWhile_cons, if_pos (by decide), takeWhile_no_colon t hc]

theorem pyStrip_space_cons (t : LC) : pyStrip (' ' :: t) = pyStrip t := by
  unfold pyStrip
  rw [List.dropWhile_cons, if_pos (by decide)]

theorem termName_of_termLine (t : LC) (hc : ':' ∉ t) (hstrip : pyStrip t = t) :
    pyStrip (splitColonField1 (termLineStart ++ t)) = t := by
  rw [splitColonField1_termLine t hc, pyStrip_space_cons, hstrip]

def appendAllVal (m : List (LC × List LC)) (t : LC) (ss : List LC) :
    List (LC × List LC) :=
  m.map (fun p => if p.1 = t then (p.1, p.2 ++ ss) else p)

theorem lookupKey_appendAllVal (m : List (LC × List LC)) (t : LC)
    (ss : List LC) (u : LC) :
    lookupKey (appendAllVal m t ss) u
      = if u = t then (lookupKey m u).map (fun v => v ++ ss)
        else lookupKey m u := by
  unfold appendAllVal
  have heq : m.map (fun p => if p.1 = t then (p.1, p.2 ++ ss) else p)
      = m.map (fun p => if p.1 = t then (p.1, (fun v => v ++ ss) p.2) else p) :=
    rfl
  rw [heq, lookupKey_map_entry m (fun v => v ++ ss) t u]

theorem appendAllVal_nil (m : List (LC × List LC)) (t : LC) :
    appendAllVal m t [] = m := by
  unfold appendAllVal
  have : ∀ p : LC × List LC,
      (if p.1 = t then (p.1, p.2 ++ ([] : List LC)) else p) = p := by
    intro p
    by_cases h : p.1 = t
    · rw [if_pos h, List.append_nil]
    · rw [if_neg h]
  calc m.map (fun p => if p.1 = t then (p.1, p.2 ++ ([] : List LC)) else p)
      = m.map id := List.map_congr_left (fun a _ => this a)
  _ = m := List.map_id m

theorem appendAllVal_compose (m : List (LC × List LC)) (t : LC) (s : LC)
    (ss : List LC) :
    appendAllVal (m.map (fun p => if p.1 = t then (p.1, p.2 ++ [s]) else p)) t ss
      = appendAllVal m t (s :: ss) := by
  unfold appendAllVal
  rw [List.map_map]
  apply List.map_congr_left
  intro p _
  by_cases h : p.1 = t
  · simp [h]
  · simp [h]

theorem parse_section_lines (ss : List LC) :
    ∀ (rest : List LC) (terms : List LC) (m : List (LC × List LC)) (t : LC),
      (∀ s ∈ ss, pyStrip s = s) → t.isEmpty = false →
      (lookupKey m t).isSome = true →
      parseLinesGo (ss.flatMap sectionBlockLines ++ rest) terms m (some t)
        = parseLinesGo rest terms (appendAllVal m t ss) (some t) := by
  induction ss with
  | nil =>
    intro rest terms m t _ _ _
    rw [List.flatMap_nil, List.nil_append, appendAllVal_nil]
  | cons s ss2 ih =>
    intro rest terms m t hs hne hlk
    rw [List.flatMap_cons, List.append_assoc]
    have hlines : sectionBlockLines s = (sectionLineStart ++ s) :: [] :: ["---".toList] := rfl
    rw [hlines, List.cons_append, List.cons_append, List.cons_append,
      List.nil_append]
    rw [parseLinesGo_cons]
    have hb : bulletMark.isPrefixOf (sectionLineStart ++ s) = false := by
      have h1 : bulletMark = '-' :: " ".toList := by decide
      have h2 : sectionLineStart ++ s = 'S' :: ("ection: ".toList ++ s) := rfl
      rw [h1, h2]
      exact not_prefixOf_head _ _ _ _ (by decide)
    have ht2 : termMark.isPrefixOf (sectionLineStart ++ s) = false := by
      have h1 : termMark = 'T' :: "erm:".toList := by decide
      have h2 : sectionLineStart ++ s = 'S' :: ("ection: ".toList ++ s) := rfl
      rw [h1, h2]
      exact not_prefixOf_head _ _ _ _ (by decide)
    have hs2 : sectionMark.isPrefixOf (sectionLineStart ++ s) = true := by
      have h1 : sectionLineStart ++ s = sectionMark ++ (' ' :: s) := rfl
      rw [h1]
      exact isPrefixOf_append_self _ _
    rw [if_neg (by simp [hb]), if_neg (by simp [ht2]), if_pos (by simp [hs2])]
    have htr : optTruthy (some t) = true := by simp [optTruthy, hne]
    rw [if_pos htr]
    have hgd : (some t).getD [] = t := rfl
    rw [hgd]
    have hdrop : (sectionLineStart ++ s).drop 9 = s := by
      have hlen : sectionLineStart.length = 9 := by decide
      rw [← hlen, List.drop_left]
    rw [hdrop, hs s (List.mem_cons_self _ _)]
    rw [appendKey_isSome_of m t s hlk, Option.some_bind]
    rw [parse_skip [] _ _ _ _ (by decide) (by decide) (by decide),
      parse_skip ("---".toList) _ _ _ _ (by decide) (by decide) (by decide)]
    have hlk2 : (lookupKey (m.map (fun p =>
        if p.1 = t then (p.1, p.2 ++ [s]) else p)) t).isSome = true := by
      have heq : m.map (fun p => if p.1 = t then (p.1, p.2 ++ [s]) else p)
          = m.map (fun p => if p.1 = t then (p.1, (fun v => v ++ [s]) p.2) else p) :=
        rfl
      rw [heq, lookupKey_map_entry m (fun v => v ++ [s]) t t, if_pos rfl]
      obtain ⟨v, hv⟩ := Option.isSome_iff_exists.mp hlk
      rw [hv]
      rfl
    rw [ih rest terms _ t (fun u hu => hs u (List.mem_cons_of_mem _ hu)) hne hlk2,
      appendAllVal_compose]

theorem parse_term_block (t : LC) (ss : List LC) (rest : List LC)
    (terms : List LC) (m : List (LC × List LC)) (cur : Option LC)
    (hne : t.isEmpty = false) (hc : ':' ∉ t) (hstrip : pyStrip t = t)
    (hs : ∀ s ∈ ss, pyStrip s = s) (hlk : (lookupKey m t).isSome = true) :
    parseLinesGo (termBlockLines (t, ss) ++ rest) terms m cur
      = parseLinesGo rest terms (appendAllVal m t ss) (some t) := by
  have hlines : termBlockLines (t, ss)
      = [] :: (termLineStart ++ t) :: ss.flatMap sectionBlockLines := rfl
  rw [hlines, List.cons_append, List.cons_append]
  rw [parse_skip [] _ _ _ _ (by decide) (by decide) (by decide)]
  rw [parseLinesGo_cons]
  have hb : bulletMark.isPrefixOf (termLineStart ++ t) = false := by
    have h1 : bulletMark = '-' :: " ".toList := by decide
    have h2 : termLineStart ++ t = 'T' :: ("erm: ".toList ++ t) := rfl
    rw [h1, h2]
    exact not_prefixOf_head _ _ _ _ (by decide)
  have ht2 : termMark.isPrefixOf (termLineStart ++ t) = true := by
    have h1 : termLineStart ++ t = termMark ++ (' ' :: t) := rfl
    rw [h1]
    exact isPrefixOf_append_self _ _
  rw [if_neg (by simp [hb]), if_pos (by simp [ht2]),
    termName_of_termLine t hc hstrip]
  exact parse_section_lines ss rest terms m t hs hne hlk

theorem parse_record_blocks (rec : List (LC × List LC)) :
    ∀ (rest : List LC) (terms : List LC) (m : List (LC × List LC))
      (cur : Option LC),
      (∀ p ∈ rec, p.1.isEmpty = false ∧ ':' ∉ p.1 ∧ pyStrip p.1 = p.1
        ∧ (∀ s ∈ p.2, pyStrip s = s)) →
      (∀ p ∈ rec, (lookupKey m p.1).isSome = true) →
      parseLinesGo (rec.flatMap termBlockLines ++ rest) terms m cur
        = parseLinesGo rest terms
            (rec.foldl (fun m p => appendAllVal m p.1 p.2) m)
            (rec.foldl (fun _ p => some p.1) cur) := by
  induction rec with
  | nil => intro rest terms m cur _ _; simp
  | cons p rec2 ih =>
    intro rest terms m cur hprops hlk
    rw [List.flatMap_cons, List.append_assoc]
    obtain ⟨hne, hc, hstrip, hs⟩ := hprops p (List.mem_cons_self _ _)
    have hblock := parse_term_block p.1 p.2
      (rec2.flatMap termBlockLines ++ rest) terms m cur hne hc hstrip hs
      (hlk p (List.mem_cons_self _ _))
    rw [show termBlockLines (p.1, p.2) = termBlockLines p from rfl] at hblock
    rw [hblock]
    rw [ih _ _ _ _ (fun q hq => hprops q (List.mem_cons_of_mem _ hq))
      (fun q hq => by
        rw [show (lookupKey (appendAllVal m p.1 p.2) q.1).isSome
            = ((if q.1 = p.1 then (lookupKey m q.1).map (fun v => v ++ p.2)
                else lookupKey m q.1)).isSome from by
          rw [lookupKey_appendAllVal]]
        by_cases hqp : q.1 = p.1
        · rw [if_pos hqp]
          obtain ⟨v, hv⟩ := Option.isSome_iff_exists.mp
            (hlk p (List.mem_cons_self _ _))
          rw [hqp, hv]
          rfl
        · rw [if_neg hqp]
          exact hlk q (List.mem_cons_of_mem _ hq))]
    simp

/-! ## Evaluating the parser state folds -/

theorem addSet_eq_appendUnique : addSet = appendUnique := rfl

theorem lookupKey_eq_none {β : Type} (m : List (LC × β)) (t : LC)
    (h : t ∉ m.map Prod.fst) : lookupKey m t = none := by
  induction m with
  | nil => rfl
  | cons p rest ih =>
    have hp : p.1 ≠ t := by
      intro he
      exact h (by rw [List.map_cons]; exact he ▸ List.mem_cons_self _ _)
    rw [lookupKey_cons, if_neg hp]
    apply ih
    intro hm
    exact h (by rw [List.map_cons]; exact List.mem_cons_of_mem _ hm)

theorem foldl_setKey_fresh (ts : List LC) :
    ∀ (m : List (LC × List LC)), (m.map Prod.fst ++ ts).Nodup →
      ts.foldl setKey m = m ++ ts.map (fun t => (t, ([] : List LC))) := by
  induction ts with
  | nil => intro m _; simp
  | cons t ts2 ih =>
    intro m h
    have htm : lookupKey m t = none := by
      apply lookupKey_eq_none
      intro hmem
      rcases List.nodup_append.mp h with ⟨_, _, hdis⟩
      exact hdis hmem (List.mem_cons_self _ _)
    have hset : setKey m t = m ++ [(t, [])] := by
      unfold setKey
      rw [htm]
      rfl
    rw [List.foldl_cons, hset, ih (m ++ [(t, [])]) (by
      rw [List.map_append]
      simpa using h)]
    simp

theorem appendAllVal_tabulated (L : List LC) (g : LC → List LC) (t : LC)
    (ss : List LC) :
    appendAllVal (L.map (fun u => (u, g u))) t ss
      = L.map (fun u => (u, if u = t then g u ++ ss else g u)) := by
  unfold appendAllVal
  rw [List.map_map]
  apply List.map_congr_left
  intro a _
  by_cases h : a = t
  · simp [h]
  · simp [h]

theorem foldl_appendAllVal_tabulated (rec : List (LC × List LC)) :
    ∀ (L : List LC) (g : LC → List LC), (rec.map Prod.fst).Nodup →
      rec.foldl (fun m p => appendAllVal m p.1 p.2) (L.map (fun u => (u, g u)))
        = L.map (fun u => (u, g u ++ ((lookupKey rec u).getD []))) := by
  induction rec with
  | nil =>
    intro L g _
    apply List.map_congr_left
    intro a _
    simp [lookupKey]
  | cons p rec2 ih =>
    intro L g hnd
    have hnd2 : (rec2.map Prod.fst).Nodup := by
      rw [List.map_cons] at hnd
      exact (List.nodup_cons.mp hnd).2
    have hpnot : p.1 ∉ rec2.map Prod.fst := by
      rw [List.map_cons] at hnd
      exact (List.nodup_cons.mp hnd).1
    rw [List.foldl_cons, appendAllVal_tabulated]
    rw [show L.map (fun u => (u, if u = p.1 then g u ++ p.2 else g u))
        = L.map (fun u => (u, (fun v => if v = p.1 then g v ++ p.2 else g v) u))
      from rfl]
    rw [ih L _ hnd2]
    apply List.map_congr_left
    intro a _
    by_cases hap : a = p.1
    · have h1 : lookupKey (p :: rec2) a = some p.2 := by
        rw [lookupKey_cons, if_pos hap.symm]
      have h2 : lookupKey rec2 a = none :=
        lookupKey_eq_none rec2 a (hap ▸ hpnot)
      rw [h1, h2]
      simp [hap]
    · have h1 : lookupKey (p :: rec2) a = lookupKey rec2 a := by
        rw [lookupKey_cons, if_neg (fun he => hap he.symm)]
      rw [h1]
      simp [hap]

/-! ## Stability of cleaned sections under strip -/

theorem pyStrip_head?_false (l : LC) (d : Char)
    (h : (pyStrip l).head? = some d) : pyIsSpace d = false := by
  cases hx : pyStrip l with
  | nil => rw [hx] at h; cases h
  | cons c r =>
    rw [hx] at h
    have hcd : c = d := by simpa using h
    subst hcd
    exact pyStrip_head_false l c r hx

theorem pyStrip_eq_self_of_ends (l : LC)
    (hh : ∀ d, l.head? = some d → pyIsSpace d = false)
    (hl : ∀ d, l.getLast? = some d → pyIsSpace d = false) :
    pyStrip l = l := by
  cases l with
  | nil => rfl
  | cons c rest =>
    unfold pyStrip
    rw [List.dropWhile_cons, if_neg (by simp [hh c rfl])]
    rcases hrev : (c :: rest).reverse with _ | ⟨e, r2⟩
    · exfalso
      have := congrArg List.length hrev
      simp at this
    · have he : pyIsSpace e = false := by
        apply hl
        rw [← List.head?_reverse, hrev]
        rfl
      rw [List.dropWhile_cons, if_neg (by simp [he]), ← hrev,
        List.reverse_reverse]

theorem replNl_not_space (e : Char) (he : pyIsSpace e = false) :
    replNl e = e ∧ pyIsSpace (replNl e) = false := by
  have hne : e ≠ '\n' := by
    intro h
    rw [h] at he
    exact absurd he (by decide)
  exact ⟨by simp [replNl, hne], by simp [replNl, hne, he]⟩

theorem pyStrip_cleanupSection (sec : LC) :
    pyStrip (cleanupSection sec) = cleanupSection sec := by
  apply pyStrip_eq_self_of_ends
  · intro d hd
    unfold cleanupSection at hd
    rw [List.head?_map] at hd
    cases hps : (pyStrip sec).head? with
    | none => rw [hps] at hd; cases hd
    | some e =>
      rw [hps] at hd
      have hde : replNl e = d := by simpa using hd
      have hesp : pyIsSpace e = false := pyStrip_head?_false sec e hps
      rw [← hde, (replNl_not_space e hesp).1]
      exact hesp
  · intro d hd
    unfold cleanupSection at hd
    rw [List.getLast?_map] at hd
    cases hps : (pyStrip sec).getLast? with
    | none => rw [hps] at hd; cases hd
    | some e =>
      rw [hps] at hd
      have hde : replNl e = d := by simpa using hd
      have hesp : pyIsSpace e = false := pyStrip_getLast_false sec e hps
      rw [← hde, (replNl_not_space e hesp).1]
      exact hesp

/-! ## Line-break freedom of generated lines -/

theorem mem_pyStrip_subset (l : LC) (c : Char) (h : c ∈ pyStrip l) : c ∈ l := by
  unfold pyStrip at h
  rw [List.mem_reverse] at h
  have h2 := ((List.dropWhile_suffix pyIsSpace).sublist).subset h
  rw [List.mem_reverse] at h2
  exact ((List.dropWhile_suffix pyIsSpace).sublist).subset h2

theorem mem_splitSections_mem_text (text : LC) (sec : LC)
    (hsec : sec ∈ splitSections text) (c : Char) (hc : c ∈ sec) : c ∈ text := by
  have hj : (splitSections text).flatten = text := by
    simpa using splitGo_join text none []
  rw [← hj]
  exact List.mem_flatten.mpr ⟨sec, hsec, hc⟩

theorem cleanupSection_break_free (text : LC)
    (htext : ∀ c ∈ text, c = '\n' ∨ pyIsLineBreak c = false)
    (sec : LC) (hsec : sec ∈ splitSections text) :
    ∀ c ∈ cleanupSection sec, pyIsLineBreak c = false := by
  intro c hc
  unfold cleanupSection at hc
  obtain ⟨d, hd, rfl⟩ := List.mem_map.mp hc
  have hdtext : d ∈ text :=
    mem_splitSections_mem_text text sec hsec d (mem_pyStrip_subset sec d hd)
  rcases htext d hdtext with rfl | hfree
  · decide
  · by_cases hdn : d = '\n'
    · subst hdn; decide
    · rw [show replNl d = d from by simp [replNl, hdn]]
      exact hfree

theorem saveLines_break_free (terms : List LC) (rec : List (LC × List LC))
    (hterm : ∀ t ∈ terms, ∀ c ∈ t, pyIsLineBreak c = false)
    (hkeys : ∀ p ∈ rec, ∀ c ∈ p.1, pyIsLineBreak c = false)
    (hsecs : ∀ p ∈ rec, ∀ s ∈ p.2, ∀ c ∈ s, pyIsLineBreak c = false) :
    ∀ l ∈ saveLines terms rec, ∀ c ∈ l, pyIsLineBreak c = false := by
  intro l hl
  unfold saveLines at hl
  rcases List.mem_cons.mp hl with rfl | hl
  · exact fun c hc =>
      (by decide : ∀ c ∈ "Extracted Key Terms:".toList, pyIsLineBreak c = false)
        c hc
  rcases List.mem_append.mp hl with hl | hl
  · obtain ⟨t, ht, rfl⟩ := List.mem_map.mp hl
    intro c hc
    rcases List.mem_append.mp hc with hc | hc
    · exact (by decide : ∀ c ∈ bulletMark, pyIsLineBreak c = false) c hc
    · exact hterm t ht c hc
  rcases List.mem_append.mp hl with hl | hl
  · rcases List.mem_cons.mp hl with rfl | hl
    · intro c hc; cases hc
    · rcases List.mem_cons.mp hl with rfl | hl
      · exact fun c hc =>
          (by decide : ∀ c ∈ "Mapped Sections:".toList, pyIsLineBreak c = false)
            c hc
      · cases hl
  · obtain ⟨p, hp, hlp⟩ := List.mem_flatMap.mp hl
    unfold termBlockLines at hlp
    rcases List.mem_append.mp hlp with hlp | hlp
    · rcases List.mem_cons.mp hlp with rfl | hlp
      · intro c hc; cases hc
      · rcases List.mem_cons.mp hlp with rfl | hlp
        · intro c hc
          rcases List.mem_append.mp hc with hc | hc
          · exact (by decide : ∀ c ∈ termLineStart, pyIsLineBreak c = false) c hc
          · exact hkeys p hp c hc
        · cases hlp
    · obtain ⟨s, hsm, hls⟩ := List.mem_flatMap.mp hlp
      unfold sectionBlockLines at hls
      rcases List.mem_cons.mp hls with rfl | hls
      · intro c hc
        rcases List.mem_append.mp hc with hc | hc
        · exact (by decide : ∀ c ∈ sectionLineStart, pyIsLineBreak c = false) c hc
        · exact hsecs p hp s hsm c hc
      · rcases List.mem_cons.mp hls with rfl | hls
        · intro c hc; cases hc
        · rcases List.mem_cons.mp hls with rfl | hls
          · exact fun c hc =>
              (by decide : ∀ c ∈ "---".toList, pyIsLineBreak c = false) c hc
          · cases hls

/-! ## Claim C1 -/

/-- Claim C1 counterexample: with candidates `{"foo"}`, ground truth
`{"foo"}` and text `"bar"`, the curation stages produce the term list
`["foo"]` and the mapping stage an empty record; parsing the saved file
does not reproduce this pair, because the parser registers every
bulleted term with an empty section list, so the empty record comes
back as `{"foo": []}`. -/
theorem save_load_roundtrip_counterexample :
    filter_relevant_terms
        (ensure_ground_truth_terms
          (ensure_critical_terms [("foo".toList)] ("bar".toList))
          [("foo".toList)] ("bar".toList))
        [("foo".toList)] = [("foo".toList)]
    ∧ map_terms_to_sections ("bar".toList) [("foo".toList)] = []
    ∧ parse_term_extraction_results
        (save_term_extraction_results [("foo".toList)] [])
        ≠ some ([("foo".toList)], []) := by
  refine ⟨by decide, by decide, by decide⟩

/-- Claim C1 (amended): for duplicate-free terms that are non-empty,
colon-free, strip-fixed and line-break-free (as every ground-truth term
read from a bullet line is), and text whose only line breaks are
newlines, parsing the saved file succeeds and returns the same terms up
to order (the parser collects them into a Python set) together with the
record padded with an explicit empty section list for every term that
had no sections. -/
theorem save_load_roundtrip_amended (text : LC) (terms : List LC)
    (hnd : terms.Nodup)
    (hterm : ∀ t ∈ terms, t ≠ [] ∧ ':' ∉ t ∧ pyStrip t = t
      ∧ ∀ c ∈ t, pyIsLineBreak c = false)
    (htext : ∀ c ∈ text, c = '\n' ∨ pyIsLineBreak c = false) :
    ∃ r, parse_term_extraction_results
        (save_term_extraction_results terms (map_terms_to_sections text terms))
        = some r
      ∧ r.1.Perm terms
      ∧ r.2 = terms.map (fun t =>
          (t, (lookupKey (map_terms_to_sections text terms) t).getD [])) := by
  have hstruct : map_terms_to_sections text terms
      = (terms.filter (fun t => !(sectionsFor text t).isEmpty)).map
          (fun t => (t, sectionsFor text t)) := by
    rw [map_terms_struct, dedupFirst_eq_self terms hnd, List.filter_map]
    rfl
  have hkeysub : ∀ p ∈ map_terms_to_sections text terms, p.1 ∈ terms := by
    rw [hstruct]
    intro p hp
    obtain ⟨t, ht2, rfl⟩ := List.mem_map.mp hp
    exact List.mem_of_mem_filter ht2
  have hkeynd : ((map_terms_to_sections text terms).map Prod.fst).Nodup := by
    rw [hstruct, List.map_map]
    have hid : (Prod.fst ∘ (fun t : LC => (t, sectionsFor text t))) = id := rfl
    rw [hid, List.map_id]
    exact hnd.filter _
  have hsecsOf : ∀ p ∈ map_terms_to_sections text terms,
      p.2 = sectionsFor text p.1 := by
    rw [hstruct]
    intro p hp
    obtain ⟨t, _, rfl⟩ := List.mem_map.mp hp
    rfl
  have hprops : ∀ p ∈ map_terms_to_sections text terms,
      p.1.isEmpty = false ∧ ':' ∉ p.1 ∧ pyStrip p.1 = p.1
        ∧ (∀ s ∈ p.2, pyStrip s = s) := by
    intro p hp
    obtain ⟨hne, hcol, hstrip, _⟩ := hterm p.1 (hkeysub p hp)
    refine ⟨?_, hcol, hstrip, ?_⟩
    · cases hq : p.1 with
      | nil => exact absurd hq hne
      | cons c r => rfl
    · intro s hsmem
      rw [hsecsOf p hp] at hsmem
      obtain ⟨sec, _, _, rfl⟩ := mem_sectionsFor text p.1 s hsmem
      exact pyStrip_cleanupSection sec
  have hsecfree : ∀ p ∈ map_terms_to_sections text terms,
      ∀ s ∈ p.2, ∀ c ∈ s, pyIsLineBreak c = false := by
    intro p hp s hsmem
    rw [hsecsOf p hp] at hsmem
    obtain ⟨sec, hsec, _, rfl⟩ := mem_sectionsFor text p.1 s hsmem
    exact cleanupSection_break_free text htext sec hsec
  have hbf : ∀ l ∈ saveLines terms (map_terms_to_sections text terms),
      ∀ c ∈ l, pyIsLineBreak c = false :=
    saveLines_break_free terms _ (fun t ht => (hterm t ht).2.2.2)
      (fun p hp => (hterm p.1 (hkeysub p hp)).2.2.2) hsecfree
  rw [save_eq_joinNl]
  unfold parse_term_extraction_results
  rw [pySplitlines_joinNl _ hbf]
  unfold saveLines
  rw [parse_skip ("Extracted Key Terms:".toList) _ _ _ _ (by decide) (by decide)
    (by decide)]
  rw [parse_bullets terms _ _ _ _ (fun t ht => (hterm t ht).2.2.1)]
  rw [show ([([] : LC), "Mapped Sections:".toList]
      ++ (map_terms_to_sections text terms).flatMap termBlockLines)
      = ([] : LC) :: "Mapped Sections:".toList
        :: (map_terms_to_sections text terms).flatMap termBlockLines from rfl]
  rw [parse_skip [] _ _ _ _ (by decide) (by decide) (by decide),
    parse_skip ("Mapped Sections:".toList) _ _ _ _ (by decide) (by decide)
      (by decide)]
  have hT : terms.foldl addSet [] = terms := by
    rw [addSet_eq_appendUnique]
    simpa using foldl_appendUnique_of_nodup terms [] (by simpa using hnd)
  have hM : terms.foldl setKey [] = terms.map (fun t => (t, ([] : List LC))) := by
    simpa using foldl_setKey_fresh terms [] (by simpa using hnd)
  rw [hT, hM]
  have hlk1 : ∀ p ∈ map_terms_to_sections text terms,
      (lookupKey (terms.map (fun t => (t, ([] : List LC)))) p.1).isSome
        = true := by
    intro p hp
    rw [lookupKey_tabulated terms _ p.1, if_pos (hkeysub p hp)]
    rfl
  rw [show (map_terms_to_sections text terms).flatMap termBlockLines
      = (map_terms_to_sections text terms).flatMap termBlockLines ++ [] from
      (List.append_nil _).symm]
  rw [parse_record_blocks _ [] _ _ _ hprops hlk1]
  rw [foldl_appendAllVal_tabulated _ terms _ hkeynd]
  rw [parseLinesGo_nil]
  refine ⟨_, rfl, List.Perm.refl _, ?_⟩
  apply List.map_congr_left
  intro a _
  simp

theorem save_load_roundtrip_amended_witness :
    (["alpha".toList, "beta".toList] : List LC).Nodup
    ∧ (∃ r, parse_term_extraction_results
        (save_term_extraction_results ["alpha".toList, "beta".toList]
          (map_terms_to_sections ("1. alpha here\n2. other".toList)
            ["alpha".toList, "beta".toList]))
        = some r
      ∧ r.1.Perm ["alpha".toList, "beta".toList]
      ∧ r.2 = (["alpha".toList, "beta".toList] : List LC).map (fun t =>
          (t, (lookupKey (map_terms_to_sections ("1. alpha here\n2. other".toList)
            ["alpha".toList, "beta".toList]) t).getD []))) :=
  ⟨by decide,
    save_load_roundtrip_amended ("1. alpha here\n2. other".toList)
      ["alpha".toList, "beta".toList] (by decide)
      (by decide) (by decide)⟩

/-! ## ExtractionPipeline (`process_files`) -/

/-- Python `str.replace` (all occurrences, scanning left to right); the
pipeline uses it to derive the output filename. -/
def replaceAll (pat repl : LC) (l : LC) : LC :=
  match l with
  | [] => []
  | c :: rest =>
    if h2 : pat ≠ [] ∧ pat.isPrefixOf (c :: rest) then
      repl ++ replaceAll pat repl ((c :: rest).drop pat.length)
    else c :: replaceAll pat repl rest
termination_by l.length
decreasing_by
  · simp only [List.length_drop]
    have hp : 0 < pat.length := List.length_pos.mpr h2.1
    simp only [List.length_cons]
    omega
  · simp only [List.length_cons]
    omega

/-- `filename.replace("_text.txt", "_terms.txt")`. -/
def outputName (name : LC) : LC :=
  replaceAll ("_text.txt".toList) ("_terms.txt".toList) name

/-- The per-document body of `process_files`: curation chain, section
mapping, and the persisted file content. -/
def processOneDocument (candidates : List LC) (gt : List LC) (text : LC) : LC :=
  save_term_extraction_results
    (filter_relevant_terms
      (ensure_ground_truth_terms (ensure_critical_terms candidates text) gt text)
      gt)
    (map_terms_to_sections text
      (filter_relevant_terms
        (ensure_ground_truth_terms (ensure_critical_terms candidates text) gt
          text)
        gt))

/-- `process_files` with a total candidate source: each document yields
one persisted `(filename, content)` record. -/
def process_files (candFn : LC → List LC) (gt : List LC)
    (docs : List (LC × LC)) : List (LC × LC) :=
  docs.map (fun d => (outputName d.1, processOneDocument (candFn d.2) gt d.2))

/-- Claim C6: with a fixed external candidate function (fixed up to
extensional equality, which in particular fixes the enumeration order
of the candidate set), the pipeline is a deterministic function of its
inputs - two runs on the same documents and ground truth produce
byte-identical persisted records. -/
theorem process_files_deterministic (f1 f2 : LC → List LC) (gt1 gt2 : List LC)
    (docs1 docs2 : List (LC × LC)) (hf : ∀ s, f1 s = f2 s) (hgt : gt1 = gt2)
    (hd : docs1 = docs2) :
    process_files f1 gt1 docs1 = process_files f2 gt2 docs2 := by
  subst hgt hd
  rw [funext hf]

def constCandidates : LC → List LC := fun _ => [("term".toList)]

theorem process_files_deterministic_witness :
    (∀ s, constCandidates s = constCandidates s)
    ∧ process_files constCandidates [("term".toList)]
        [("a_text.txt".toList, "1. term x".toList)]
      = process_files constCandidates [("term".toList)]
        [("a_text.txt".toList, "1. term x".toList)] :=
  ⟨fun _ => rfl,
    process_files_deterministic constCandidates constCandidates _ _ _ _
      (fun _ => rfl) rfl rfl⟩

/-! ## Claim C7 -/

/-- `process_files` with a fallible candidate source (an uncaught
Python exception aborts the loop): the result is the list of records
persisted before the failure, plus a flag recording whether the batch
aborted. -/
def process_files_exc (candFn : LC → Except Unit (List LC)) (gt : List LC) :
    List (LC × LC) → List (LC × LC) × Bool
  | [] => ([], false)
  | d :: rest =>
    match candFn d.2 with
    | Except.error _ => ([], true)
    | Except.ok cands =>
      ((outputName d.1, processOneDocument cands gt d.2)
          :: (process_files_exc candFn gt rest).1,
        (process_files_exc candFn gt rest).2)

def failingCandFn : LC → Except Unit (List LC) :=
  fun text => if text = "boom".toList then Except.error () else Except.ok []

/-- Claim C7 is violated by the code (`code_bug`): the loop body of
`process_files` has no exception handling, so a candidate-generation
failure on the first document aborts the whole batch.  Here the second
document's candidate call would succeed, yet no record at all is
persisted - in particular none for the second document. -/
theorem process_files_abort_on_failure :
    failingCandFn ("good doc".toList) = Except.ok []
    ∧ process_files_exc failingCandFn [("x".toList)]
        [("a_text.txt".toList, "boom".toList),
         ("b_text.txt".toList, "good doc".toList)]
      = ([], true) := by
  refine ⟨rfl, by decide⟩

/-! ## ChangeMonitor (`update.py`) -/

abbrev ParsedResult := List LC × List (LC × List LC)

/-- `load_term_extraction_results`: parse every `_terms.txt` file of
the results directory; `none` models a parse `KeyError` escaping the
monitor. -/
def load_term_extraction_results :
    List (LC × LC) → Option (List (LC × ParsedResult))
  | [] => some []
  | f :: rest =>
    if ("_terms.txt".toList).isSuffixOf f.1 then
      (parse_term_extraction_results f.2).bind (fun r =>
        (load_term_extraction_results rest).map (fun l => (f.1, r) :: l))
    else load_term_extraction_results rest

/-- Monitor state: `self.file_hashes` and
`self.term_extraction_results` (keys are the persisted filenames; the
constant directory prefix is omitted). -/
structure MonitorState where
  fileHashes : List (LC × LC)
  results : List (LC × ParsedResult)
  deriving DecidableEq

/-- `self.file_hashes[file_path] = new_hash` (update in place). -/
def setHash (hs : List (LC × LC)) (p h : LC) : List (LC × LC) :=
  hs.map (fun e => if e.1 = p then (e.1, h) else e)

/-- One poll tick of `monitor_changes` over the watched entries: the
hash of each watched file is recomputed (`compute_file_hash`, whose
digest is abstracted as `hashFn`); on a difference the stored hash is
updated, all results are reloaded, and a notification
(`display_updated_document`, which looks the file up in the reloaded
results) is emitted.  `none` models an uncaught exception (missing
file, parse failure, missing results key). -/
def tickGo (hashFn : LC → LC) (fs : List (LC × LC)) :
    List (LC × LC) → MonitorState → Option (MonitorState × List LC)
  | [], st => some (st, [])
  | e :: entries, st =>
    (lookupKey fs e.1).bind (fun content =>
      if hashFn content ≠ e.2 then
        (load_term_extraction_results fs).bind (fun res =>
          if (lookupKey res e.1).isSome then
            (tickGo hashFn fs entries
              { fileHashes := setHash st.fileHashes e.1 (hashFn content),
                results := res }).map (fun pr => (pr.1, e.1 :: pr.2))
          else none)
      else tickGo hashFn fs entries st)

def monitor_tick (hashFn : LC → LC) (fs : List (LC × LC))
    (st : MonitorState) : Option (MonitorState × List LC) :=
  tickGo hashFn fs st.fileHashes st

theorem tickGo_nil (hashFn : LC → LC) (fs : List (LC × LC))
    (st : MonitorState) : tickGo hashFn fs [] st = some (st, []) := rfl

theorem tickGo_cons (hashFn : LC → LC) (fs : List (LC × LC)) (e : LC × LC)
    (entries : List (LC × LC)) (st : MonitorState) :
    tickGo hashFn fs (e :: entries) st
      = (lookupKey fs e.1).bind (fun content =>
          if hashFn content ≠ e.2 then
            (load_term_extraction_results fs).bind (fun res =>
              if (lookupKey res e.1).isSome then
                (tickGo hashFn fs entries
                  { fileHashes := setHash st.fileHashes e.1 (hashFn content),
                    results := res }).map (fun pr => (pr.1, e.1 :: pr.2))
              else none)
          else tickGo hashFn fs entries st) := rfl

/-! ## Lookup lemmas for the monitor -/

theorem lookupKey_map_entryG {β : Type} (m : List (LC × β)) (f : β → β)
    (t : LC) : ∀ (u : LC),
    lookupKey (m.map (fun p => if p.1 = t then (p.1, f p.2) else p)) u
      = if u = t then (lookupKey m u).map f else lookupKey m u := by
  induction m with
  | nil => intro u; simp [lookupKey]
  | cons p rest ih =>
    intro u
    rw [List.map_cons]
    by_cases hpt : p.1 = t
    · rw [if_pos hpt, lookupKey_cons, lookupKey_cons]
      by_cases hpu : p.1 = u
      · have hut : u = t := by rw [← hpu]; exact hpt
        rw [if_pos hpu, if_pos hut, if_pos hpu]
        rfl
      · have hut : ¬(u = t) := by
          intro he
          exact hpu (by rw [hpt, he])
        rw [if_neg hpu, if_neg hut, if_neg hpu, ih u, if_neg hut]
    · rw [if_neg hpt, lookupKey_cons, lookupKey_cons]
      by_cases hpu : p.1 = u
      · have hut : ¬(u = t) := by
          intro he
          exact hpt (by rw [hpu, he])
        rw [if_pos hpu, if_neg hut, if_pos hpu]
      · rw [if_neg hpu, if_neg hpu, ih u]

theorem lookupKey_setHash_self (hs : List (LC × LC)) (p h : LC) :
    lookupKey (setHash hs p h) p = (lookupKey hs p).map (fun _ => h) := by
  unfold setHash
  have heq : hs.map (fun e => if e.1 = p then (e.1, h) else e)
      = hs.map (fun e => if e.1 = p then (e.1, (fun _ : LC => h) e.2) else e) :=
    rfl
  rw [heq, lookupKey_map_entryG hs (fun _ => h) p p, if_pos rfl]

theorem lookupKey_setHash_ne (hs : List (LC × LC)) (p h q : LC) (hq : q ≠ p) :
    lookupKey (setHash hs p h) q = lookupKey hs q := by
  unfold setHash
  have heq : hs.map (fun e => if e.1 = p then (e.1, h) else e)
      = hs.map (fun e => if e.1 = p then (e.1, (fun _ : LC => h) e.2) else e) :=
    rfl
  rw [heq, lookupKey_map_entryG hs (fun _ => h) p q, if_neg hq]

theorem setHash_keys (hs : List (LC × LC)) (p h : LC) :
    (setHash hs p h).map Prod.fst = hs.map Prod.fst := by
  unfold setHash
  rw [List.map_map]
  apply List.map_congr_left
  intro e _
  by_cases he : e.1 = p
  · simp [he]
  · simp [he]

theorem lookupKey_isSome_of_mem {β : Type} (m : List (LC × β)) (p : LC)
    (v : β) (h : (p, v) ∈ m) : (lookupKey m p).isSome = true := by
  induction m with
  | nil => cases h
  | cons e rest ih =>
    rcases List.mem_cons.mp h with he | hm
    · rw [lookupKey_cons, if_pos (by rw [← he])]
      rfl
    · rw [lookupKey_cons]
      by_cases hep : e.1 = p
      · rw [if_pos hep]; rfl
      · rw [if_neg hep]; exact ih hm

theorem lookupKey_eq_of_mem_nodup {β : Type} (m : List (LC × β)) (p : LC)
    (v : β) (h : (p, v) ∈ m) (hnd : (m.map Prod.fst).Nodup) :
    lookupKey m p = some v := by
  induction m with
  | nil => cases h
  | cons e rest ih =>
    rw [List.map_cons] at hnd
    rcases List.mem_cons.mp h with he | hm
    · rw [lookupKey_cons, if_pos (by rw [← he])]
      rw [← he]
    · have hep : e.1 ≠ p := by
        intro hep
        apply (List.nodup_cons.mp hnd).1
        rw [hep]
        exact List.mem_map.mpr ⟨(p, v), hm, rfl⟩
      rw [lookupKey_cons, if_neg hep]
      exact ih hm (List.nodup_cons.mp hnd).2

theorem mem_of_mem_keys {β : Type} (m : List (LC × β)) (q : LC)
    (h : q ∈ m.map Prod.fst) : ∃ v, (q, v) ∈ m := by
  obtain ⟨e, he, rfl⟩ := List.mem_map.mp h
  exact ⟨e.2, he⟩

/-! ## Behaviour of one poll tick -/

theorem tickGo_keys (hashFn : LC → LC) (fs : List (LC × LC)) :
    ∀ (entries : List (LC × LC)) (st st2 : MonitorState) (ns : List LC),
      tickGo hashFn fs entries st = some (st2, ns) →
      st2.fileHashes.map Prod.fst = st.fileHashes.map Prod.fst := by
  intro entries
  induction entries with
  | nil =>
    intro st st2 ns h
    rw [tickGo_nil] at h
    injection Option.some.inj h with ha hb
    subst ha
    rfl
  | cons e entries2 ih =>
    intro st st2 ns h
    rw [tickGo_cons] at h
    cases hfs : lookupKey fs e.1 with
    | none => rw [hfs, Option.none_bind] at h; cases h
    | some content =>
      rw [hfs, Option.some_bind] at h
      by_cases hch : hashFn content = e.2
      · rw [if_neg (fun f => f hch)] at h
        exact ih _ _ _ h
      · rw [if_pos hch] at h
        cases hload : load_term_extraction_results fs with
        | none => rw [hload, Option.none_bind] at h; cases h
        | some res =>
          rw [hload, Option.some_bind] at h
          by_cases hres : (lookupKey res e.1).isSome = true
          · rw [if_pos hres] at h
            obtain ⟨pr, htg, hpr⟩ := Option.map_eq_some'.mp h
            have hst2 : pr.1 = st2 := congrArg Prod.fst hpr
            rw [← hst2]
            calc pr.1.fileHashes.map Prod.fst
                = (setHash st.fileHashes e.1 (hashFn content)).map Prod.fst :=
                  ih _ _ _ htg
            _ = st.fileHashes.map Prod.fst := setHash_keys _ _ _
          · rw [if_neg hres] at h; cases h

theorem tickGo_results (hashFn : LC → LC) (fs : List (LC × LC)) :
    ∀ (entries : List (LC × LC)) (st st2 : MonitorState) (ns : List LC),
      tickGo hashFn fs entries st = some (st2, ns) →
      st2.results = st.results
        ∨ load_term_extraction_results fs = some st2.results := by
  intro entries
  induction entries with
  | nil =>
    intro st st2 ns h
    rw [tickGo_nil] at h
    injection Option.some.inj h with ha hb
    subst ha
    exact Or.inl rfl
  | cons e entries2 ih =>
    intro st st2 ns h
    rw [tickGo_cons] at h
    cases hfs : lookupKey fs e.1 with
    | none => rw [hfs, Option.none_bind] at h; cases h
    | some content =>
      rw [hfs, Option.some_bind] at h
      by_cases hch : hashFn content = e.2
      · rw [if_neg (fun f => f hch)] at h
        exact ih _ _ _ h
      · rw [if_pos hch] at h
        cases hload : load_term_extraction_results fs with
        | none => rw [hload, Option.none_bind] at h; cases h
        | some res =>
          rw [hload, Option.some_bind] at h
          by_cases hres : (lookupKey res e.1).isSome = true
          · rw [if_pos hres] at h
            obtain ⟨pr, htg, hpr⟩ := Option.map_eq_some'.mp h
            have hst2 : pr.1 = st2 := congrArg Prod.fst hpr
            rcases ih _ _ _ htg with h1 | h1
            · right
              have hr : st2.results = res := by rw [← hst2]; exact h1
              rw [hr]
            · right
              rw [← hload, ← hst2]
              exact h1
          · rw [if_neg hres] at h; cases h

theorem tickGo_untouched (hashFn : LC → LC) (fs : List (LC × LC)) :
    ∀ (entries : List (LC × LC)) (st st2 : MonitorState) (ns : List LC)
      (q : LC),
      tickGo hashFn fs entries st = some (st2, ns) →
      q ∉ entries.map Prod.fst →
      lookupKey st2.fileHashes q = lookupKey st.fileHashes q ∧ q ∉ ns := by
  intro entries
  induction entries with
  | nil =>
    intro st st2 ns q h _
    rw [tickGo_nil] at h
    injection Option.some.inj h with ha hb
    subst ha
    subst hb
    exact ⟨rfl, List.not_mem_nil q⟩
  | cons e entries2 ih =>
    intro st st2 ns q h hq
    have hq1 : q ≠ e.1 := by
      intro he
      exact hq (by rw [List.map_cons]; exact he ▸ List.mem_cons_self _ _)
    have hq2 : q ∉ entries2.map Prod.fst := by
      intro hm
      exact hq (by rw [List.map_cons]; exact List.mem_cons_of_mem _ hm)
    rw [tickGo_cons] at h
    cases hfs : lookupKey fs e.1 with
    | none => rw [hfs, Option.none_bind] at h; cases h
    | some content =>
      rw [hfs, Option.some_bind] at h
      by_cases hch : hashFn content = e.2
      · rw [if_neg (fun f => f hch)] at h
        exact ih _ _ _ q h hq2
      · rw [if_pos hch] at h
        cases hload : load_term_extraction_results fs with
        | none => rw [hload, Option.none_bind] at h; cases h
        | some res =>
          rw [hload, Option.some_bind] at h
          by_cases hres : (lookupKey res e.1).isSome = true
          · rw [if_pos hres] at h
            obtain ⟨pr, htg, hpr⟩ := Option.map_eq_some'.mp h
            have hst2 : pr.1 = st2 := congrArg Prod.fst hpr
            have hns : e.1 :: pr.2 = ns := congrArg Prod.snd hpr
            obtain ⟨hlook, hnot⟩ := ih _ _ _ q htg hq2
            constructor
            · rw [← hst2, hlook]
              exact lookupKey_setHash_ne st.fileHashes e.1 _ q hq1
            · rw [← hns]
              intro hmem
              rcases List.mem_cons.mp hmem with he | hm
              · exact hq1 he
              · exact hnot hm
          · rw [if_neg hres] at h; cases h

theorem tickGo_allsame (hashFn : LC → LC) (fs : List (LC × LC)) :
    ∀ (entries : List (LC × LC)) (st : MonitorState),
      (∀ e ∈ entries, ∃ c, lookupKey fs e.1 = some c ∧ hashFn c = e.2) →
      tickGo hashFn fs entries st = some (st, []) := by
  intro entries
  induction entries with
  | nil => intro st _; rfl
  | cons e entries2 ih =>
    intro st h
    obtain ⟨c, hc, heq⟩ := h e (List.mem_cons_self _ _)
    rw [tickGo_cons, hc, Option.some_bind, if_neg (fun f => f heq)]
    exact ih st (fun e2 he2 => h e2 (List.mem_cons_of_mem _ he2))

theorem tickGo_mem (hashFn : LC → LC) (fs : List (LC × LC)) :
    ∀ (entries : List (LC × LC)) (st st2 : MonitorState) (ns : List LC)
      (p oldH : LC),
      tickGo hashFn fs entries st = some (st2, ns) →
      (p, oldH) ∈ entries → (entries.map Prod.fst).Nodup →
      (lookupKey st.fileHashes p).isSome = true →
      ∃ c, lookupKey fs p = some c
        ∧ (hashFn c ≠ oldH →
            lookupKey st2.fileHashes p = some (hashFn c) ∧ p ∈ ns
            ∧ load_term_extraction_results fs = some st2.results
            ∧ (lookupKey st2.results p).isSome = true)
        ∧ (hashFn c = oldH →
            lookupKey st2.fileHashes p = lookupKey st.fileHashes p
              ∧ p ∉ ns) := by
  intro entries
  induction entries with
  | nil => intro st st2 ns p oldH _ hmem; cases hmem
  | cons e entries2 ih =>
    intro st st2 ns p oldH h hmem hnd hin
    rw [List.map_cons] at hnd
    rw [tickGo_cons] at h
    rcases List.mem_cons.mp hmem with he | hmem2
    · -- the entry being processed is (p, oldH)
      have he1 : e.1 = p := by rw [← he]
      have he2 : e.2 = oldH := by rw [← he]
      have hpnot : p ∉ entries2.map Prod.fst := by
        rw [← he1]
        exact (List.nodup_cons.mp hnd).1
      cases hfs : lookupKey fs e.1 with
      | none => rw [hfs, Option.none_bind] at h; cases h
      | some content =>
        rw [hfs, Option.some_bind] at h
        refine ⟨content, by rw [← he1]; exact hfs, ?_, ?_⟩
        · intro hne
          have hch : ¬(hashFn content = e.2) := by
            rw [he2]; exact hne
          rw [if_pos hch] at h
          cases hload : load_term_extraction_results fs with
          | none => rw [hload, Option.none_bind] at h; cases h
          | some res =>
            rw [hload, Option.some_bind] at h
            by_cases hres : (lookupKey res e.1).isSome = true
            · rw [if_pos hres] at h
              obtain ⟨pr, htg, hpr⟩ := Option.map_eq_some'.mp h
              have hst2 : pr.1 = st2 := congrArg Prod.fst hpr
              have hns : e.1 :: pr.2 = ns := congrArg Prod.snd hpr
              obtain ⟨hlook, _⟩ := tickGo_untouched hashFn fs entries2 _ _ _ p
                htg hpnot
              have hsh : lookupKey
                  (setHash st.fileHashes e.1 (hashFn content)) p
                  = some (hashFn content) := by
                rw [he1, lookupKey_setHash_self]
                obtain ⟨v, hv⟩ := Option.isSome_iff_exists.mp hin
                rw [hv]
                rfl
              have hresfinal : load_term_extraction_results fs
                  = some st2.results := by
                rcases tickGo_results hashFn fs entries2 _ _ _ htg with h1 | h1
                · rw [← hst2, h1, hload]
                · rw [← hst2]; exact h1
              rw [hload] at hresfinal
              refine ⟨?_, ?_, hresfinal, ?_⟩
              · rw [← hst2, hlook]
                exact hsh
              · rw [← hns]
                rw [← he1]
                exact List.mem_cons_self _ _
              · have hres2 : st2.results = res := Option.some.inj hresfinal.symm
                rw [hres2, ← he1]
                exact hres
            · rw [if_neg hres] at h; cases h
        · intro heq
          have hch : hashFn content = e.2 := by rw [he2]; exact heq
          rw [if_neg (fun f => f hch)] at h
          exact tickGo_untouched hashFn fs entries2 _ _ _ p h hpnot
    · -- the entry (p, oldH) comes later in the iteration
      have hpkeys : p ∈ entries2.map Prod.fst :=
        List.mem_map.mpr ⟨(p, oldH), hmem2, rfl⟩
      have hep : e.1 ≠ p := by
        intro hep
        exact (List.nodup_cons.mp hnd).1 (hep ▸ hpkeys)
      cases hfs : lookupKey fs e.1 with
      | none => rw [hfs, Option.none_bind] at h; cases h
      | some content =>
        rw [hfs, Option.some_bind] at h
        by_cases hch : hashFn content = e.2
        · rw [if_neg (fun f => f hch)] at h
          exact ih st st2 ns p oldH h hmem2 (List.nodup_cons.mp hnd).2 hin
        · rw [if_pos hch] at h
          cases hload : load_term_extraction_results fs with
          | none => rw [hload, Option.none_bind] at h; cases h
          | some res =>
            rw [hload, Option.some_bind] at h
            by_cases hres : (lookupKey res e.1).isSome = true
            · rw [if_pos hres] at h
              obtain ⟨pr, htg, hpr⟩ := Option.map_eq_some'.mp h
              have hst2 : pr.1 = st2 := congrArg Prod.fst hpr
              have hns : e.1 :: pr.2 = ns := congrArg Prod.snd hpr
              have hin2 : (lookupKey
                  (setHash st.fileHashes e.1 (hashFn content)) p).isSome
                  = true := by
                rw [lookupKey_setHash_ne st.fileHashes e.1 _ p
                  (fun hq => hep hq.symm)]
                exact hin
              obtain ⟨c, hc, hcne, hceq⟩ := ih _ _ _ p oldH htg hmem2
                (List.nodup_cons.mp hnd).2 hin2
              refine ⟨c, hc, ?_, ?_⟩
              · intro hne
                obtain ⟨h1, h2, h3, h4⟩ := hcne hne
                refine ⟨by rw [← hst2]; exact h1, ?_,
                  by rw [← hload, ← hst2]; exact h3, by rw [← hst2]; exact h4⟩
                rw [← hns]
                exact List.mem_cons_of_mem _ h2
              · intro heq
                obtain ⟨h1, h2⟩ := hceq heq
                refine ⟨?_, ?_⟩
                · rw [← hst2, h1,
                    lookupKey_setHash_ne st.fileHashes e.1 _ p
                      (fun hq => hep hq.symm)]
                · rw [← hns]
                  intro hmm
                  rcases List.mem_cons.mp hmm with hx | hx
                  · exact hep hx.symm
                  · exact h2 hx
            · rw [if_neg hres] at h; cases h

theorem mem_setHash_of_ne (hs : List (LC × LC)) (p h : LC) (x : LC × LC)
    (hx : x ∈ hs) (hne : x.1 ≠ p) : x ∈ setHash hs p h := by
  unfold setHash
  refine List.mem_map.mpr ⟨x, hx, ?_⟩
  rw [if_neg hne]

theorem tickGo_completes (hashFn : LC → LC) (fs : List (LC × LC)) :
    ∀ (entries : List (LC × LC)) (st st2 : MonitorState) (ns : List LC),
      (∀ x ∈ entries, x ∈ st.fileHashes) →
      (entries.map Prod.fst).Nodup →
      (st.fileHashes.map Prod.fst).Nodup →
      (∀ q h0, (q, h0) ∈ st.fileHashes → q ∉ entries.map Prod.fst →
        ∃ c, lookupKey fs q = some c ∧ hashFn c = h0) →
      tickGo hashFn fs entries st = some (st2, ns) →
      ∀ q h0, (q, h0) ∈ st2.fileHashes →
        ∃ c, lookupKey fs q = some c ∧ hashFn c = h0 := by
  intro entries
  induction entries with
  | nil =>
    intro st st2 ns _ _ _ hall h q h0 hq
    rw [tickGo_nil] at h
    injection Option.some.inj h with ha hb
    subst ha
    exact hall q h0 hq (List.not_mem_nil q)
  | cons e entries2 ih =>
    intro st st2 ns hsub hend hsnd hall h
    rw [List.map_cons] at hend
    have hesub : e ∈ st.fileHashes := hsub e (List.mem_cons_self _ _)
    rw [tickGo_cons] at h
    cases hfs : lookupKey fs e.1 with
    | none => rw [hfs, Option.none_bind] at h; cases h
    | some content =>
      rw [hfs, Option.some_bind] at h
      by_cases hch : hashFn content = e.2
      · rw [if_neg (fun f => f hch)] at h
        refine ih st st2 ns (fun x hx => hsub x (List.mem_cons_of_mem _ hx))
          (List.nodup_cons.mp hend).2 hsnd ?_ h
        intro q h0 hq hnot
        by_cases hqe : q = e.1
        · refine ⟨content, by rw [hqe]; exact hfs, ?_⟩
          have h1 : lookupKey st.fileHashes q = some h0 :=
            lookupKey_eq_of_mem_nodup st.fileHashes q h0 hq hsnd
          have h2 : lookupKey st.fileHashes q = some e.2 := by
            rw [hqe]
            exact lookupKey_eq_of_mem_nodup st.fileHashes e.1 e.2 hesub hsnd
          have h3 : h0 = e.2 := Option.some.inj (h1.symm.trans h2)
          rw [h3]
          exact hch
        · refine hall q h0 hq ?_
          rw [List.map_cons]
          intro hm
          rcases List.mem_cons.mp hm with hx | hx
          · exact hqe hx
          · exact hnot hx
      · rw [if_pos hch] at h
        cases hload : load_term_extraction_results fs with
        | none => rw [hload, Option.none_bind] at h; cases h
        | some res =>
          rw [hload, Option.some_bind] at h
          by_cases hres : (lookupKey res e.1).isSome = true
          · rw [if_pos hres] at h
            obtain ⟨pr, htg, hpr⟩ := Option.map_eq_some'.mp h
            have hst2 : pr.1 = st2 := congrArg Prod.fst hpr
            rw [← hst2]
            refine ih _ pr.1 pr.2 ?_ (List.nodup_cons.mp hend).2 ?_ ?_ htg
            · intro x hx
              refine mem_setHash_of_ne st.fileHashes e.1 (hashFn content) x
                (hsub x (List.mem_cons_of_mem _ hx)) ?_
              intro hxe
              exact (List.nodup_cons.mp hend).1
                (hxe ▸ List.mem_map.mpr ⟨x, hx, rfl⟩)
            · have hk : (setHash st.fileHashes e.1
                  (hashFn content)).map Prod.fst
                  = st.fileHashes.map Prod.fst := setHash_keys _ _ _
              show ((setHash st.fileHashes e.1
                (hashFn content)).map Prod.fst).Nodup
              rw [hk]
              exact hsnd
            · intro q h0 hq hnot
              rcases List.mem_map.mp hq with ⟨x, hx, hxq⟩
              by_cases hxe : x.1 = e.1
              · rw [if_pos hxe] at hxq
                injection hxq with hq1 hq2
                refine ⟨content, ?_, hq2⟩
                rw [← hq1, hxe]
                exact hfs
              · rw [if_neg hxe] at hxq
                have hq1 : q ≠ e.1 := by
                  intro hqq
                  exact hxe (by rw [show x.1 = q from congrArg Prod.fst hxq,
                    hqq])
                have hx2 : (q, h0) ∈ st.fileHashes := hxq ▸ hx
                refine hall q h0 hx2 ?_
                rw [List.map_cons]
                intro hm
                rcases List.mem_cons.mp hm with hy | hy
                · exact hq1 hy
                · exact hnot hy
          · rw [if_neg hres] at h; cases h

/-- C8: one poll tick of `monitor_changes` over a watched file `p`
whose stored hash is `oldH` and whose current content is `content`:
if the recomputed hash differs from the stored one, the stored hash is
updated to the new value, a notification for `p` is emitted, and the
results are reloaded via the store's parser
(`load_term_extraction_results`), with `p` present in the reloaded
results; if the hash is unchanged, the stored hash and the
notification state for `p` are left unchanged; and in either case a
second tick with no further modification reports no change (same
state, no notifications). -/
theorem monitor_tick_spec (hashFn : LC → LC) (fs : List (LC × LC))
    (st st2 : MonitorState) (ns : List LC) (p oldH content : LC)
    (hnd : (st.fileHashes.map Prod.fst).Nodup)
    (hmem : (p, oldH) ∈ st.fileHashes)
    (hfs : lookupKey fs p = some content)
    (h : monitor_tick hashFn fs st = some (st2, ns)) :
    (hashFn content ≠ oldH →
        lookupKey st2.fileHashes p = some (hashFn content)
        ∧ p ∈ ns
        ∧ load_term_extraction_results fs = some st2.results
        ∧ (lookupKey st2.results p).isSome = true)
    ∧ (hashFn content = oldH →
        lookupKey st2.fileHashes p = lookupKey st.fileHashes p ∧ p ∉ ns)
    ∧ monitor_tick hashFn fs st2 = some (st2, []) := by
  unfold monitor_tick at h
  have hin : (lookupKey st.fileHashes p).isSome = true :=
    lookupKey_isSome_of_mem st.fileHashes p oldH hmem
  obtain ⟨c, hc, hcne, hceq⟩ :=
    tickGo_mem hashFn fs st.fileHashes st st2 ns p oldH h hmem hnd hin
  have hcc : c = content := Option.some.inj (hc.symm.trans hfs)
  subst hcc
  refine ⟨hcne, hceq, ?_⟩
  have hcomp := tickGo_completes hashFn fs st.fileHashes st st2 ns
    (fun x hx => hx) hnd hnd
    (fun q h0 hq hnot =>
      absurd (List.mem_map.mpr ⟨(q, h0), hq, rfl⟩) hnot) h
  unfold monitor_tick
  exact tickGo_allsame hashFn fs st2.fileHashes st2
    (fun e he => hcomp e.1 e.2 he)

theorem monitor_tick_spec_witness :
    (((⟨[("a_terms.txt".toList, "old".toList)], []⟩ :
          MonitorState).fileHashes.map Prod.fst).Nodup
      ∧ ("a_terms.txt".toList, "old".toList) ∈
          (⟨[("a_terms.txt".toList, "old".toList)], []⟩ :
            MonitorState).fileHashes
      ∧ lookupKey [("a_terms.txt".toList, "- x".toList)]
          ("a_terms.txt".toList) = some ("- x".toList)
      ∧ monitor_tick (fun c => c) [("a_terms.txt".toList, "- x".toList)]
          ⟨[("a_terms.txt".toList, "old".toList)], []⟩
          = some (⟨[("a_terms.txt".toList, "- x".toList)],
              [("a_terms.txt".toList,
                (["x".toList], [("x".toList, [])]))]⟩,
              ["a_terms.txt".toList]))
    ∧ (((fun (c : LC) => c) ("- x".toList) ≠ "old".toList →
          lookupKey (⟨[("a_terms.txt".toList, "- x".toList)],
              [("a_terms.txt".toList,
                (["x".toList], [("x".toList, [])]))]⟩ :
              MonitorState).fileHashes ("a_terms.txt".toList)
            = some ((fun (c : LC) => c) ("- x".toList))
          ∧ "a_terms.txt".toList ∈ ["a_terms.txt".toList]
          ∧ load_term_extraction_results
              [("a_terms.txt".toList, "- x".toList)]
            = some (⟨[("a_terms.txt".toList, "- x".toList)],
                [("a_terms.txt".toList,
                  (["x".toList], [("x".toList, [])]))]⟩ :
                MonitorState).results
          ∧ (lookupKey (⟨[("a_terms.txt".toList, "- x".toList)],
                [("a_terms.txt".toList,
                  (["x".toList], [("x".toList, [])]))]⟩ :
                MonitorState).results ("a_terms.txt".toList)).isSome
              = true)
        ∧ ((fun (c : LC) => c) ("- x".toList) = "old".toList →
            lookupKey (⟨[("a_terms.txt".toList, "- x".toList)],
                [("a_terms.txt".toList,
                  (["x".toList], [("x".toList, [])]))]⟩ :
                MonitorState).fileHashes ("a_terms.txt".toList)
              = lookupKey (⟨[("a_terms.txt".toList, "old".toList)],
                  []⟩ : MonitorState).fileHashes ("a_terms.txt".toList)
              ∧ "a_terms.txt".toList ∉ ["a_terms.txt".toList])
        ∧ monitor_tick (fun c => c)
            [("a_terms.txt".toList, "- x".toList)]
            ⟨[("a_terms.txt".toList, "- x".toList)],
              [("a_terms.txt".toList,
                (["x".toList], [("x".toList, [])]))]⟩
          = some (⟨[("a_terms.txt".toList, "- x".toList)],
              [("a_terms.txt".toList,
                (["x".toList], [("x".toList, [])]))]⟩, [])) :=
  ⟨⟨by decide, by decide, by decide, by decide⟩,
    monitor_tick_spec (fun c => c)
      [("a_terms.txt".toList, "- x".toList)]
      ⟨[("a_terms.txt".toList, "old".toList)], []⟩
      ⟨[("a_terms.txt".toList, "- x".toList)],
        [("a_terms.txt".toList, (["x".toList], [("x".toList, [])]))]⟩
      ["a_terms.txt".toList] ("a_terms.txt".toList) ("old".toList)
      ("- x".toList) (by decide) (by decide) (by decide) (by decide)⟩
